import Mathlib

/-!
# Verification of the CirceSoft grid path planner

This file gives a shallow embedding of the planning core of the repository:

* `AI-Pathfinding/grid_astar.py` — cost model (`COST_X`, `COST_Y`, `COST_DIAG`,
  `weighted_manhattan`, `weighted_octile`, `step_cost`), the budget-constrained
  A* segment planner (`astar`), reachability flood fill (`_compute_reachable`),
  obstacle inflation (`inflate_obstacles`) and the `newly_unreachable`
  computation from `main`.
* `Backend/grid_astar.py` — the backend A* variant (`astarB`).
* `Backend/grid_watch.py` — the CSV change watcher (`CSVChangeHandler`).

Python `float` cost arithmetic is modelled with exact rationals (`ℚ`); Python
sets of integer coordinate pairs are modelled with `Finset (ℤ × ℤ)`; the
unbounded `while` loops are modelled with explicit fuel, with lemmas showing
the fuel supplied by the embedding is sufficient.  Dictionaries (`g`,
`came_from`) are modelled as association lists where an update prepends the
new binding; the `heapq` priority queue is modelled as a bag of entries from
which `selectMin` pops a least element in the lexicographic `(f, coord)`
order used by Python tuple comparison.
-/

/-- Grid coordinate `(x, y)`, as in the Python `Coord = Tuple[int, int]`. -/
abbrev Coord : Type := ℤ × ℤ

/-- Source constant `COST_X = 7.5` (feet per horizontal step). -/
def COST_X : ℚ := mkRat 75 10

/-- Source constant `COST_Y = 5.16129` (feet per vertical step). -/
def COST_Y : ℚ := mkRat 516129 100000

/-- Source constant `COST_DIAG = 9.104334` (feet per diagonal step). -/
def COST_DIAG : ℚ := mkRat 9104334 1000000

/-- Bounds check `in_bounds(p, width, height)`: `0 <= x < width and 0 <= y < height`. -/
def in_bounds (p : Coord) (width height : ℤ) : Prop :=
  0 ≤ p.1 ∧ p.1 < width ∧ 0 ≤ p.2 ∧ p.2 < height

instance (p : Coord) (w h : ℤ) : Decidable (in_bounds p w h) :=
  inferInstanceAs (Decidable (0 ≤ p.1 ∧ p.1 < w ∧ 0 ≤ p.2 ∧ p.2 < h))

/-- Neighbor list `neighbors_4(x, y)` in source order. -/
def neighbors_4 (p : Coord) : List Coord :=
  [(p.1 - 1, p.2), (p.1 + 1, p.2), (p.1, p.2 - 1), (p.1, p.2 + 1)]

/-- Neighbor list `neighbors_8(x, y)` in source order. -/
def neighbors_8 (p : Coord) : List Coord :=
  [(p.1 - 1, p.2), (p.1 + 1, p.2), (p.1, p.2 - 1), (p.1, p.2 + 1),
   (p.1 - 1, p.2 - 1), (p.1 - 1, p.2 + 1), (p.1 + 1, p.2 - 1), (p.1 + 1, p.2 + 1)]

/-- Selected topology: `neigh = neighbors_8 if diagonal else neighbors_4`. -/
def neighF (diagonal : Bool) : Coord → List Coord :=
  if diagonal then neighbors_8 else neighbors_4

/-- Heuristic `weighted_manhattan(a, b) = COST_X*|dx| + COST_Y*|dy|`. -/
def weighted_manhattan (a b : Coord) : ℚ :=
  COST_X * ((|a.1 - b.1| : ℤ) : ℚ) + COST_Y * ((|a.2 - b.2| : ℤ) : ℚ)

/-- Heuristic `weighted_octile(a, b)`: diagonals for `min(dx,dy)`, then the dominant
axis at its per-axis cost. -/
def weighted_octile (a b : Coord) : ℚ :=
  let dx : ℤ := |a.1 - b.1|
  let dy : ℤ := |a.2 - b.2|
  let dmin : ℤ := min dx dy
  let dmax : ℤ := max dx dy
  COST_DIAG * (dmin : ℚ) + ((dmax - dmin : ℤ) : ℚ) * (if dy < dx then COST_X else COST_Y)

/-- Selected heuristic: `h = weighted_octile if diagonal else weighted_manhattan`. -/
def hFun (diagonal : Bool) : Coord → Coord → ℚ :=
  if diagonal then weighted_octile else weighted_manhattan

/-- Step cost `step_cost(a, b)`: feet between adjacent grid cells under 4/8-way movement. -/
def step_cost (a b : Coord) : ℚ :=
  if a.1 ≠ b.1 ∧ a.2 ≠ b.2 then COST_DIAG
  else if a.1 ≠ b.1 then COST_X
  else COST_Y

/-- Total cost of a coordinate sequence: the sum of `step_cost` over
consecutive pairs (as in `path_length_feet` for a non-trivial path). -/
def pathCost : List Coord → ℚ
  | [] => 0
  | [_] => 0
  | a :: b :: t => step_cost a b + pathCost (b :: t)

/-- Lookup in an association list where the most recent binding is first. -/
def alookup {α : Type} : List (Coord × α) → Coord → Option α
  | [], _ => none
  | (k, v) :: t, n => if k = n then some v else alookup t n

/-- The mutable state of the Python `astar` loop: the `open_heap` bag, the `g`
and `came_from` dictionaries, and the `closed` set. -/
structure AState where
  openH : List (ℚ × Coord)
  gl : List (Coord × ℚ)
  cf : List (Coord × Coord)
  closed : Finset Coord

/-- Python tuple comparison `(f₁, (x₁, y₁)) ≤ (f₂, (x₂, y₂))` used by `heapq`. -/
def keyLe (a b : ℚ × Coord) : Prop :=
  a.1 < b.1 ∨ (a.1 = b.1 ∧ (a.2.1 < b.2.1 ∨ (a.2.1 = b.2.1 ∧ a.2.2 ≤ b.2.2)))

instance (a b : ℚ × Coord) : Decidable (keyLe a b) :=
  inferInstanceAs
    (Decidable (a.1 < b.1 ∨ (a.1 = b.1 ∧ (a.2.1 < b.2.1 ∨ (a.2.1 = b.2.1 ∧ a.2.2 ≤ b.2.2)))))

/-- A least entry of the heap bag (what `heappop` returns). -/
def selectMin : List (ℚ × Coord) → Option (ℚ × Coord)
  | [] => none
  | x :: xs => some (xs.foldl (fun m e => if keyLe m e then m else e) x)

/-- Remove the first occurrence of an entry from the heap bag. -/
def eraseFirst : List (ℚ × Coord) → (ℚ × Coord) → List (ℚ × Coord)
  | [], _ => []
  | x :: xs, e => if x = e then xs else x :: eraseFirst xs e

/-- Path reconstruction `reconstruct(came_from, current)`: follow parents back to the start and
reverse; the accumulator holds the cells already visited, in path order after
the current cell.  Fuel bounds the number of parent links followed. -/
def reconstructF : ℕ → List (Coord × Coord) → Coord → List Coord → List Coord
  | 0, _, cur, acc => cur :: acc
  | fuel + 1, cf, cur, acc =>
    match alookup cf cur with
    | none => cur :: acc
    | some p => reconstructF fuel cf p (cur :: acc)

/-- The arguments of one `astar` call. -/
structure AParams where
  width : ℤ
  height : ℤ
  start : Coord
  goal : Coord
  blocked : Finset Coord
  valid : Finset Coord
  diagonal : Bool
  cable_limit : ℚ

/-- One relaxation of successor `nxt` from `current` (the body of the
`for nxt in neigh(cx, cy)` loop in `astar`). -/
def relax (P : AParams) (st : AState) (cur nxt : Coord) : AState :=
  if ¬ in_bounds nxt P.width P.height then st
  else if nxt ∉ P.valid then st
  else if nxt ∈ P.blocked then st
  else
    let tent : ℚ := (alookup st.gl cur).getD 0 + step_cost cur nxt
    if P.cable_limit < tent then st
    else
      let doUpd : AState :=
        { openH := (tent + hFun P.diagonal nxt P.goal, nxt) :: st.openH
          gl := (nxt, tent) :: st.gl
          cf := (nxt, cur) :: st.cf
          closed := st.closed }
      match alookup st.gl nxt with
      | none => doUpd
      | some v => if tent < v then doUpd else st

/-- Relax all successors of `cur` (the whole neighbor loop). -/
def expand (P : AParams) (st : AState) (cur : Coord) : AState :=
  (neighF P.diagonal cur).foldl (fun s m => relax P s cur m) st

/-- The `while open_heap:` loop of `astar`, with fuel. -/
def astarLoop (P : AParams) : ℕ → AState → Option (List Coord)
  | 0, _ => none
  | fuel + 1, st =>
    match selectMin st.openH with
    | none => none
    | some top =>
      let rest := eraseFirst st.openH top
      let cur := top.2
      if cur ∈ st.closed then astarLoop P fuel { st with openH := rest }
      else
        let gc : ℚ := (alookup st.gl cur).getD 0
        if P.cable_limit < gc then astarLoop P fuel { st with openH := rest }
        else if cur = P.goal then
          if gc ≤ P.cable_limit then some (reconstructF (st.cf.length + 1) st.cf cur [])
          else astarLoop P fuel
            (expand P { st with openH := rest, closed := insert cur st.closed } cur)
        else astarLoop P fuel
          (expand P { st with openH := rest, closed := insert cur st.closed } cur)

/-- The cells the search can ever close: in-bounds valid cells plus the start. -/
def cellsFin (P : AParams) : Finset Coord :=
  ((Finset.Icc (0 : ℤ) (P.width - 1)) ×ˢ (Finset.Icc (0 : ℤ) (P.height - 1))).filter
    (fun p => p ∈ P.valid) ∪ {P.start}

/-- Fuel sufficient for the `astar` loop to run to completion. -/
def astarFuel (P : AParams) : ℕ := 9 * (cellsFin P).card + 10

/-- Initial search state: `g = {start: 0}`, heap seeded with
`(h(start, goal), start)`. -/
def initState (P : AParams) : AState :=
  { openH := [(hFun P.diagonal P.start P.goal, P.start)]
    gl := [(P.start, 0)]
    cf := []
    closed := ∅ }

/-- The function `astar(width, height, start, goal, blocked, valid, diagonal, cable_limit_ft)`
from `AI-Pathfinding/grid_astar.py`. -/
def astarQ (width height : ℤ) (start goal : Coord) (blocked valid : Finset Coord)
    (diagonal : Bool) (cable_limit : ℚ) : Option (List Coord) :=
  if start ∉ valid ∨ goal ∉ valid then none
  else if start ∈ blocked ∨ goal ∈ blocked then none
  else
    let P : AParams :=
      { width := width, height := height, start := start, goal := goal,
        blocked := blocked, valid := valid, diagonal := diagonal,
        cable_limit := cable_limit }
    astarLoop P (astarFuel P) (initState P)

/-- A path as the claims describe it: non-empty, from `start` to `goal`,
consecutive cells topology-adjacent, every cell in the valid mask and outside
the blocked set. -/
def PathOk (diagonal : Bool) (valid blocked : Finset Coord) (start goal : Coord)
    (p : List Coord) : Prop :=
  p ≠ [] ∧ p.head? = some start ∧ p.getLast? = some goal ∧
    List.Chain' (fun a b => b ∈ neighF diagonal a) p ∧
    ∀ c ∈ p, c ∈ valid ∧ c ∉ blocked

/-- Decidability of the adjacency-chain condition by structural recursion, so
that concrete instances reduce inside the kernel. -/
def decChainNeigh (d : Bool) :
    (l : List Coord) → Decidable (List.Chain' (fun a b => b ∈ neighF d a) l)
  | [] => isTrue List.chain'_nil
  | [_] => isTrue (List.chain'_singleton _)
  | a :: b :: rest =>
    match decChainNeigh d (b :: rest), inferInstanceAs (Decidable (b ∈ neighF d a)) with
    | isTrue ht, isTrue hm => isTrue (List.chain'_cons.mpr ⟨hm, ht⟩)
    | isFalse hf, _ => isFalse (fun hc => hf (List.chain'_cons.mp hc).2)
    | _, isFalse hm => isFalse (fun hc => hm (List.chain'_cons.mp hc).1)

instance (priority := 1100) (d : Bool) (l : List Coord) :
    Decidable (List.Chain' (fun a b => b ∈ neighF d a) l) :=
  decChainNeigh d l

instance (d : Bool) (v b : Finset Coord) (s g : Coord) (p : List Coord) :
    Decidable (PathOk d v b s g p) :=
  inferInstanceAs (Decidable (p ≠ [] ∧ p.head? = some s ∧ p.getLast? = some g ∧
    List.Chain' (fun a b => b ∈ neighF d a) p ∧ ∀ c ∈ p, c ∈ v ∧ c ∉ b))

/-- A path as the planner actually explores it: additionally every cell after
the first lies inside the grid bounds (successors are bounds-checked; the
start cell is not). -/
def PathOkB (width height : ℤ) (diagonal : Bool) (valid blocked : Finset Coord)
    (start goal : Coord) (p : List Coord) : Prop :=
  PathOk diagonal valid blocked start goal p ∧ ∀ c ∈ p.tail, in_bounds c width height

instance (w h : ℤ) (d : Bool) (v b : Finset Coord) (s g : Coord) (p : List Coord) :
    Decidable (PathOkB w h d v b s g p) :=
  inferInstanceAs
    (Decidable (PathOk d v b s g p ∧ ∀ c ∈ p.tail, in_bounds c w h))

/-! ## Reachability flood fill (`_compute_reachable`) -/

/-- Parameters shared by reachability and inflation. -/
structure RParams where
  width : ℤ
  height : ℤ
  blocked : Finset Coord
  valid : Finset Coord
  diagonal : Bool

/-- One neighbor step of the DFS: skip out-of-bounds, already-seen, invalid or
blocked cells; otherwise add to `seen` and push on the stack. -/
def reachStep (R : RParams) (sp : Finset Coord × List Coord) (p : Coord) :
    Finset Coord × List Coord :=
  if ¬ in_bounds p R.width R.height then sp
  else if p ∈ sp.1 then sp
  else if p ∉ R.valid ∨ p ∈ R.blocked then sp
  else (insert p sp.1, p :: sp.2)

/-- The `while stack:` loop of `_compute_reachable`, with fuel.  The stack top
is the list head (Python pops from and appends to the end of its list). -/
def reachLoop (R : RParams) : ℕ → Finset Coord → List Coord → Finset Coord
  | 0, seen, _ => seen
  | _ + 1, seen, [] => seen
  | fuel + 1, seen, c :: stack =>
    let sp := (neighF R.diagonal c).foldl (reachStep R) (seen, stack)
    reachLoop R fuel sp.1 sp.2

/-- In-bounds valid cells, bounding what the flood fill can ever see. -/
def cellsR (R : RParams) : Finset Coord :=
  ((Finset.Icc (0 : ℤ) (R.width - 1)) ×ˢ (Finset.Icc (0 : ℤ) (R.height - 1))).filter
    (fun p => p ∈ R.valid)

/-- Fuel sufficient for the flood fill to drain its stack. -/
def reachFuel (R : RParams) : ℕ := 9 * (cellsR R).card + 2

/-- The function `_compute_reachable(width, height, start, blocked, valid, diagonal)`. -/
def compute_reachable (width height : ℤ) (start : Coord)
    (blocked valid : Finset Coord) (diagonal : Bool) : Finset Coord :=
  if start ∉ valid ∨ start ∈ blocked then ∅
  else
    let R : RParams :=
      { width := width, height := height, blocked := blocked, valid := valid,
        diagonal := diagonal }
    reachLoop R (reachFuel R) {start} [start]

/-- The `newly_unreachable` set computed in `main`: valid cells neither already
blocked nor reachable from the start. -/
def newly_unreachable (width height : ℤ) (start : Coord)
    (blocked valid : Finset Coord) (diagonal : Bool) : Finset Coord :=
  valid.filter
    (fun p => p ∉ blocked ∧ p ∉ compute_reachable width height start blocked valid diagonal)

/-! ## Obstacle inflation (`inflate_obstacles`) -/

/-- The function `inflate_obstacles(blocked, valid, width, height, radius)`: add every cell
within Chebyshev distance `radius` of an obstacle that is in-bounds and in the
valid mask; non-positive radius returns the input set. -/
def inflate_obstacles (blocked valid : Finset Coord) (width height : ℤ)
    (radius : ℤ) : Finset Coord :=
  if radius ≤ 0 then blocked
  else
    blocked ∪
      blocked.biUnion (fun o =>
        (((Finset.Icc (-radius) radius) ×ˢ (Finset.Icc (-radius) radius)).image
            (fun d => (o.1 + d.1, o.2 + d.2))).filter
          (fun p => in_bounds p width height ∧ p ∈ valid))

/-! ## Backend A* (`Backend/grid_astar.py`) -/

/-- The IEEE double closest to `sqrt(2.0)`, as an exact rational
(`6369051672525773 / 2^52`). -/
def SQRT2_F : ℚ := mkRat 6369051672525773 4503599627370496

/-- Backend heuristic: Manhattan for 4-way, octile
`D*(dx+dy) + (D2 - 2*D)*min(dx,dy)` with `D = 1`, `D2 = sqrt(2)` for 8-way. -/
def hB (diagonal : Bool) (a b : Coord) : ℚ :=
  let dx : ℤ := |a.1 - b.1|
  let dy : ℤ := |a.2 - b.2|
  if diagonal then ((dx + dy : ℤ) : ℚ) + (SQRT2_F - 2) * ((min dx dy : ℤ) : ℚ)
  else ((dx + dy : ℤ) : ℚ)

/-- Backend step cost: `sqrt(2)` for a diagonal step under 8-way movement,
`1.0` otherwise. -/
def step_costB (diagonal : Bool) (a b : Coord) : ℚ :=
  if diagonal then (if a.1 ≠ b.1 ∧ a.2 ≠ b.2 then SQRT2_F else 1) else 1

/-- Arguments of one backend `astar` call. -/
structure BParams where
  width : ℤ
  height : ℤ
  start : Coord
  goal : Coord
  blocked : Finset Coord
  diagonal : Bool

/-- One relaxation in the backend search (bounds and blocked checks only). -/
def relaxB (P : BParams) (st : AState) (cur nxt : Coord) : AState :=
  if ¬ in_bounds nxt P.width P.height ∨ nxt ∈ P.blocked then st
  else
    let tent : ℚ := (alookup st.gl cur).getD 0 + step_costB P.diagonal cur nxt
    let doUpd : AState :=
      { openH := (tent + hB P.diagonal nxt P.goal, nxt) :: st.openH
        gl := (nxt, tent) :: st.gl
        cf := (nxt, cur) :: st.cf
        closed := st.closed }
    match alookup st.gl nxt with
    | none => doUpd
    | some v => if tent < v then doUpd else st

/-- The backend `while open_heap:` loop, with fuel. -/
def astarLoopB (P : BParams) : ℕ → AState → Option (List Coord)
  | 0, _ => none
  | fuel + 1, st =>
    match selectMin st.openH with
    | none => none
    | some top =>
      let rest := eraseFirst st.openH top
      let cur := top.2
      if cur ∈ st.closed then astarLoopB P fuel { st with openH := rest }
      else if cur = P.goal then some (reconstructF (st.cf.length + 1) st.cf cur [])
      else
        astarLoopB P fuel
          ((neighF P.diagonal cur).foldl
            (fun s m => relaxB P s cur m)
            { st with openH := rest, closed := insert cur st.closed })

/-- Fuel for the backend loop. -/
def astarFuelB (P : BParams) : ℕ :=
  9 * (((Finset.Icc (0 : ℤ) (P.width - 1)) ×ˢ (Finset.Icc (0 : ℤ) (P.height - 1))).card + 1) + 10

/-- The function `astar(width, height, start, goal, blocked, diagonal)` from
`Backend/grid_astar.py`: the `start == goal` case is answered first, before
the bounds and blocked checks. -/
def astarB (width height : ℤ) (start goal : Coord) (blocked : Finset Coord)
    (diagonal : Bool) : Option (List Coord) :=
  if start = goal then some [start]
  else if ¬ in_bounds start width height ∨ ¬ in_bounds goal width height then none
  else if start ∈ blocked ∨ goal ∈ blocked then none
  else
    let P : BParams :=
      { width := width, height := height, start := start, goal := goal,
        blocked := blocked, diagonal := diagonal }
    astarLoopB P (astarFuelB P)
      { openH := [(hB diagonal start goal, start)], gl := [(start, 0)], cf := [],
        closed := ∅ }

/-! ## CSV watcher (`Backend/grid_watch.py`) -/

/-- The watchdog handler state: the two watched (absolute) file paths. -/
structure CSVChangeHandler where
  grid_path : String
  obs_path : String

/-- Event handler `on_modified`: `run_astar` is invoked exactly when the event is not a
directory event and its path is one of the two watched files.  Returns whether
the A* script is run for this event. -/
def on_modified (h : CSVChangeHandler) (is_directory : Bool) (src_path : String) :
    Bool :=
  if ¬ is_directory ∧ (src_path = h.grid_path ∨ src_path = h.obs_path) then true
  else false

/-- Number of times the A* pipeline is run over a sequence of filesystem
events `(is_directory, src_path)`. -/
def runsAstar (h : CSVChangeHandler) (events : List (Bool × String)) : ℕ :=
  events.foldl (fun acc e => if on_modified h e.1 e.2 then acc + 1 else acc) 0

/-! ## Proof-layer definitions -/

/-- A cell the search may enter as a successor: in bounds, valid, not blocked. -/
def okSucc (P : AParams) (c : Coord) : Prop :=
  in_bounds c P.width P.height ∧ c ∈ P.valid ∧ c ∉ P.blocked

/-- The chain of `came_from` links from the start to a cell, in path order. -/
inductive CfChain (cf : List (Coord × Coord)) (start : Coord) : Coord → List Coord → Prop
  | base : alookup cf start = none → CfChain cf start start [start]
  | step {q n : Coord} {l : List Coord} :
      CfChain cf start q l → alookup cf n = some q → CfChain cf start n (l ++ [n])

/-- Search-state invariant.  `exc` excludes newly closed cells from the
`closed_exp` field while their successors are still being relaxed. -/
structure AInvP (P : AParams) (exc : Finset Coord) (st : AState) : Prop where
  start_ok : P.start ∈ P.valid ∧ P.start ∉ P.blocked
  open_dom : ∀ f n, (f, n) ∈ st.openH →
    ∃ v, alookup st.gl n = some v ∧ v + hFun P.diagonal n P.goal ≤ f ∧ n ∈ cellsFin P
  open_cov : ∀ n v, n ∉ st.closed → alookup st.gl n = some v → v ≤ P.cable_limit →
    ∃ f, (f, n) ∈ st.openH ∧ f ≤ v + hFun P.diagonal n P.goal
  g_start : alookup st.gl P.start = some 0
  g_nonneg : ∀ n v, alookup st.gl n = some v → 0 ≤ v
  cf_link : ∀ n q, alookup st.cf n = some q →
    n ∈ neighF P.diagonal q ∧ okSucc P n ∧
      ∃ vn vq, alookup st.gl n = some vn ∧ alookup st.gl q = some vq ∧
        vq + step_cost q n ≤ vn
  cf_dom : ∀ n v, alookup st.gl n = some v → n = P.start ∨ ∃ q, alookup st.cf n = some q
  cf_start : alookup st.cf P.start = none
  goal_unclosed : P.goal ∉ st.closed
  closed_dom : ∀ n ∈ st.closed, ∃ v, alookup st.gl n = some v
  closed_opt : ∀ n ∈ st.closed, ∀ p,
    PathOkB P.width P.height P.diagonal P.valid P.blocked P.start n p →
    pathCost p ≤ P.cable_limit → ∃ v, alookup st.gl n = some v ∧ v ≤ pathCost p
  closed_exp : ∀ n ∈ st.closed, n ∉ exc → ∀ m ∈ neighF P.diagonal n, okSucc P m →
    ∀ vn, alookup st.gl n = some vn → vn + step_cost n m ≤ P.cable_limit →
    ∃ vm, alookup st.gl m = some vm ∧ vm ≤ vn + step_cost n m

/-- The search-state invariant with no exclusions. -/
def AInv (P : AParams) (st : AState) : Prop := AInvP P ∅ st

/-- Termination measure for the `astar` loop. -/
def measureA (P : AParams) (st : AState) : ℕ :=
  st.openH.length + 9 * ((cellsFin P) \ st.closed).card

/-- Connectivity closure computed by the flood fill: cells reachable from the
start through in-bounds, valid, unblocked cells. -/
inductive ReachRel (R : RParams) (start : Coord) : Coord → Prop
  | base : ReachRel R start start
  | step {q c : Coord} : ReachRel R start q → c ∈ neighF R.diagonal q →
      in_bounds c R.width R.height → c ∈ R.valid → c ∉ R.blocked → ReachRel R start c

/-- Flood-fill loop invariant: everything seen is reachable; every seen cell
either has all its eligible successors seen or still sits on the stack. -/
structure RInv (R : RParams) (start : Coord) (seen : Finset Coord)
    (stack : List Coord) : Prop where
  stack_seen : ∀ c ∈ stack, c ∈ seen
  seen_reach : ∀ c ∈ seen, ReachRel R start c
  seen_cells : ∀ c ∈ seen, c ∈ cellsR R ∨ c = start
  seen_front : ∀ c ∈ seen, c ∈ stack ∨
    ∀ m ∈ neighF R.diagonal c, in_bounds m R.width R.height → m ∈ R.valid →
      m ∉ R.blocked → m ∈ seen

/-- Termination measure for the flood-fill loop. -/
def measureR (R : RParams) (start : Coord) (seen : Finset Coord)
    (stack : List Coord) : ℕ :=
  stack.length + 9 * ((insert start (cellsR R)) \ seen).card

/-- Octile value as a function of the two nonnegative axis distances; equals
`weighted_octile` applied to the absolute coordinate differences. -/
def octQ (u v : ℤ) : ℚ :=
  COST_DIAG * ((min u v : ℤ) : ℚ) +
    ((max u v - min u v : ℤ) : ℚ) * (if v < u then COST_X else COST_Y)

/-! # Theorems

## Cost-model facts -/

attribute [local semireducible] Rat.add Rat.sub Rat.mul Rat.inv Rat.ofScientific

theorem COST_Y_pos : (0 : ℚ) < COST_Y := by decide

theorem COST_X_pos : (0 : ℚ) < COST_X := by decide

theorem COST_DIAG_pos : (0 : ℚ) < COST_DIAG := by decide

theorem COST_Y_le_X : COST_Y ≤ COST_X := by decide

theorem COST_X_le_DIAG : COST_X ≤ COST_DIAG := by decide

theorem COST_DIAG_le_sum : COST_DIAG ≤ COST_X + COST_Y := by decide

theorem step_cost_pos (a b : Coord) : 0 < step_cost a b := by
  unfold step_cost
  split_ifs
  · exact COST_DIAG_pos
  · exact COST_X_pos
  · exact COST_Y_pos

theorem pathCost_nonneg : ∀ p : List Coord, 0 ≤ pathCost p
  | [] => le_refl 0
  | [_] => le_refl 0
  | a :: b :: t => by
    have h1 := step_cost_pos a b
    have h2 := pathCost_nonneg (b :: t)
    simp only [pathCost]
    linarith

theorem pathCost_cons₂ (a b : Coord) (t : List Coord) :
    pathCost (a :: b :: t) = step_cost a b + pathCost (b :: t) := rfl

theorem pathCost_concat :
    ∀ (l : List Coord) (q n : Coord), l.getLast? = some q →
      pathCost (l ++ [n]) = pathCost l + step_cost q n
  | [], q, n, h => by simp at h
  | [x], q, n, h => by
    simp only [List.getLast?_singleton, Option.some.injEq] at h
    subst h
    simp [pathCost]
  | x :: y :: t, q, n, h => by
    have h' : (y :: t).getLast? = some q := by
      simpa [List.getLast?_cons_cons] using h
    have ih := pathCost_concat (y :: t) q n h'
    simp only [List.cons_append, pathCost_cons₂] at *
    rw [ih]
    ring

theorem octQ_succ_both (u v : ℤ) : octQ (u + 1) (v + 1) = COST_DIAG + octQ u v := by
  unfold octQ
  rcases le_or_lt u v with h | h
  · rw [min_eq_left h, max_eq_right h, min_eq_left (by omega : u + 1 ≤ v + 1),
      max_eq_right (by omega : u + 1 ≤ v + 1), if_neg (by omega : ¬ v + 1 < u + 1),
      if_neg (by omega : ¬ v < u)]
    push_cast
    ring
  · rw [min_eq_right h.le, max_eq_left h.le, min_eq_right (by omega : v + 1 ≤ u + 1),
      max_eq_left (by omega : v + 1 ≤ u + 1), if_pos (by omega : v + 1 < u + 1),
      if_pos h]
    push_cast
    ring

theorem octQ_succ_left (u v : ℤ) :
    octQ u v ≤ octQ (u + 1) v ∧ octQ (u + 1) v ≤ COST_X + octQ u v := by
  unfold octQ
  rcases lt_or_le u v with h | h
  · rw [min_eq_left h.le, max_eq_right h.le, min_eq_left (by omega : u + 1 ≤ v),
      max_eq_right (by omega : u + 1 ≤ v), if_neg (by omega : ¬ v < u + 1),
      if_neg (by omega : ¬ v < u)]
    constructor
    · push_cast
      have h1 := COST_Y_le_X
      have h2 := COST_X_le_DIAG
      have h3 := COST_DIAG_le_sum
      nlinarith
    · push_cast
      have h1 := COST_Y_le_X
      have h2 := COST_X_le_DIAG
      have h3 := COST_DIAG_le_sum
      nlinarith
  · rw [min_eq_right h, max_eq_left h, min_eq_right (by omega : v ≤ u + 1),
      max_eq_left (by omega : v ≤ u + 1), if_pos (by omega : v < u + 1)]
    rcases eq_or_lt_of_le h with rfl | h'
    · rw [if_neg (lt_irrefl v)]
      constructor
      · push_cast
        have h1 := COST_X_pos
        nlinarith
      · push_cast
        have h1 := COST_Y_le_X
        nlinarith
    · rw [if_pos h']
      constructor
      · push_cast
        have h1 := COST_X_pos
        nlinarith
      · push_cast
        nlinarith

theorem octQ_succ_right (u v : ℤ) :
    octQ u v ≤ octQ u (v + 1) ∧ octQ u (v + 1) ≤ COST_Y + octQ u v := by
  unfold octQ
  rcases lt_or_le v u with h | h
  · rcases (by omega : v + 1 < u ∨ v + 1 = u) with h' | h'
    · rw [min_eq_right h.le, max_eq_left h.le, min_eq_right (by omega : v + 1 ≤ u),
        max_eq_left (by omega : v + 1 ≤ u), if_pos h', if_pos h]
      constructor
      · push_cast
        have h1 := COST_X_le_DIAG
        nlinarith
      · push_cast
        have h1 := COST_X_le_DIAG
        have h2 := COST_DIAG_le_sum
        nlinarith
    · subst h'
      rw [min_eq_right h.le, max_eq_left h.le, min_eq_right (le_refl _),
        max_eq_left (le_refl _), if_neg (lt_irrefl _), if_pos h]
      constructor
      · push_cast
        have h1 := COST_X_le_DIAG
        nlinarith
      · push_cast
        have h1 := COST_X_le_DIAG
        have h2 := COST_DIAG_le_sum
        nlinarith
  · rw [min_eq_left h, max_eq_right h, min_eq_left (by omega : u ≤ v + 1),
      max_eq_right (by omega : u ≤ v + 1), if_neg (by omega : ¬ v + 1 < u),
      if_neg (by omega : ¬ v < u)]
    constructor
    · push_cast
      have h1 := COST_Y_pos
      nlinarith
    · push_cast
      nlinarith

theorem octQ_move_x {u u' : ℤ} (v : ℤ) (h : u' = u + 1 ∨ u = u' + 1) :
    octQ u v ≤ COST_X + octQ u' v := by
  rcases h with rfl | rfl
  · have h1 := (octQ_succ_left u v).1
    have h2 := COST_X_pos
    linarith
  · exact (octQ_succ_left u' v).2

theorem octQ_move_y (u : ℤ) {v v' : ℤ} (h : v' = v + 1 ∨ v = v' + 1) :
    octQ u v ≤ COST_Y + octQ u v' := by
  rcases h with rfl | rfl
  · have h1 := (octQ_succ_right u v).1
    have h2 := COST_Y_pos
    linarith
  · exact (octQ_succ_right u v').2

theorem octQ_move_d {u u' v v' : ℤ} (hu : u' = u + 1 ∨ u = u' + 1)
    (hv : v' = v + 1 ∨ v = v' + 1) : octQ u v ≤ COST_DIAG + octQ u' v' := by
  have hd := COST_DIAG_pos
  have hxd := COST_X_le_DIAG
  have hyx := COST_Y_le_X
  rcases hu with rfl | rfl <;> rcases hv with rfl | rfl
  · have h1 := (octQ_succ_left u v).1
    have h2 := (octQ_succ_right (u + 1) v).1
    have h3 := octQ_succ_both u v
    linarith [(octQ_succ_left u (v + 1)).1, (octQ_succ_right u v).1,
      octQ_succ_both u v]
  · have h1 := (octQ_succ_right u v').2
    have h2 := (octQ_succ_left u v').1
    linarith
  · have h1 := (octQ_succ_left u' v).2
    have h2 := (octQ_succ_right u' v).1
    linarith
  · have h3 := octQ_succ_both u' v'
    linarith

theorem octQ_nonneg {u v : ℤ} (hu : 0 ≤ u) (hv : 0 ≤ v) : 0 ≤ octQ u v := by
  unfold octQ
  have hd := COST_DIAG_pos
  have hx := COST_X_pos
  have hy := COST_Y_pos
  have hu' : (0 : ℚ) ≤ (u : ℤ) := by exact_mod_cast hu
  have hv' : (0 : ℚ) ≤ (v : ℤ) := by exact_mod_cast hv
  rcases le_total u v with h | h
  · have h' : ((u : ℤ) : ℚ) ≤ ((v : ℤ) : ℚ) := by exact_mod_cast h
    rw [min_eq_left h, max_eq_right h, if_neg (by omega : ¬ v < u)]
    push_cast
    nlinarith [mul_nonneg hd.le hu', mul_nonneg hy.le (by linarith : (0 : ℚ) ≤ (v : ℚ) - (u : ℚ))]
  · have h' : ((v : ℤ) : ℚ) ≤ ((u : ℤ) : ℚ) := by exact_mod_cast h
    rw [min_eq_right h, max_eq_left h]
    split_ifs
    · push_cast
      nlinarith [mul_nonneg hd.le hv', mul_nonneg hx.le (by linarith : (0 : ℚ) ≤ (u : ℚ) - (v : ℚ))]
    · push_cast
      nlinarith [mul_nonneg hd.le hv', mul_nonneg hy.le (by linarith : (0 : ℚ) ≤ (u : ℚ) - (v : ℚ))]

theorem weighted_octile_eq (a b : Coord) :
    weighted_octile a b = octQ |a.1 - b.1| |a.2 - b.2| := rfl

theorem abs_succ_cases (x : ℤ) : |x + 1| = |x| + 1 ∨ |x| = |x + 1| + 1 := by
  rcases le_or_lt 0 x with h | h
  · left
    rw [abs_of_nonneg h, abs_of_nonneg (by omega)]
  · right
    rw [abs_of_neg h, abs_of_nonpos (by omega)]
    ring

theorem abs_pred_cases (x : ℤ) : |x - 1| = |x| + 1 ∨ |x| = |x - 1| + 1 := by
  have h := abs_succ_cases (x - 1)
  simp only [sub_add_cancel] at h
  tauto

theorem step_cost_dx (a : Coord) {e : ℤ} (he : e = a.1 - 1 ∨ e = a.1 + 1) :
    step_cost a (e, a.2) = COST_X := by
  have h2 : a.1 ≠ e := by rcases he with rfl | rfl <;> omega
  simp only [step_cost]
  rw [if_neg (by simp), if_pos h2]

theorem step_cost_dy (a : Coord) {f : ℤ} (_hf : f = a.2 - 1 ∨ f = a.2 + 1) :
    step_cost a (a.1, f) = COST_Y := by
  simp only [step_cost]
  rw [if_neg (by simp), if_neg (by simp)]

theorem step_cost_dd (a : Coord) {e f : ℤ} (he : e = a.1 - 1 ∨ e = a.1 + 1)
    (hf : f = a.2 - 1 ∨ f = a.2 + 1) : step_cost a (e, f) = COST_DIAG := by
  have h1 : a.1 ≠ e := by rcases he with rfl | rfl <;> omega
  have h2 : a.2 ≠ f := by rcases hf with rfl | rfl <;> omega
  simp only [step_cost]
  rw [if_pos ⟨h1, h2⟩]

theorem not_mem_neighF_self (d : Bool) (a : Coord) : a ∉ neighF d a := by
  cases d <;> simp [neighF, neighbors_4, neighbors_8, Prod.ext_iff] <;> omega

theorem length_neighF_le (d : Bool) (a : Coord) : (neighF d a).length ≤ 8 := by
  cases d <;> simp [neighF, neighbors_4, neighbors_8]

theorem hFun_self (d : Bool) (a : Coord) : hFun d a a = 0 := by
  cases d <;>
    simp [hFun, weighted_manhattan, weighted_octile, octQ]

theorem hFun_nonneg (d : Bool) (a b : Coord) : 0 ≤ hFun d a b := by
  cases d
  · have hx := COST_X_pos
    have hy := COST_Y_pos
    have h1 : (0 : ℤ) ≤ |a.1 - b.1| := abs_nonneg _
    have h2 : (0 : ℤ) ≤ |a.2 - b.2| := abs_nonneg _
    simp only [hFun, weighted_manhattan, Bool.false_eq_true, if_false]
    have h1' : (0 : ℚ) ≤ ((|a.1 - b.1| : ℤ) : ℚ) := by exact_mod_cast h1
    have h2' : (0 : ℚ) ≤ ((|a.2 - b.2| : ℤ) : ℚ) := by exact_mod_cast h2
    nlinarith
  · simp only [hFun, if_pos]
    rw [weighted_octile_eq]
    exact octQ_nonneg (abs_nonneg _) (abs_nonneg _)

theorem hFun_consistent (d : Bool) (g : Coord) {a b : Coord}
    (hb : b ∈ neighF d a) : hFun d a g ≤ step_cost a b + hFun d b g := by
  cases d
  · simp only [neighF, Bool.false_eq_true, if_false, neighbors_4,
      List.mem_cons, List.mem_singleton, List.not_mem_nil, or_false] at hb
    have hx := COST_X_pos
    have hy := COST_Y_pos
    rcases hb with rfl | rfl | rfl | rfl
    · rw [step_cost_dx a (Or.inl rfl)]
      simp only [hFun, Bool.false_eq_true, if_false, weighted_manhattan]
      have hc := abs_pred_cases (a.1 - g.1)
      have he : a.1 - 1 - g.1 = a.1 - g.1 - 1 := by ring
      rw [he]
      rcases hc with hc | hc <;> rw [hc] <;> push_cast <;> nlinarith
    · rw [step_cost_dx a (Or.inr rfl)]
      simp only [hFun, Bool.false_eq_true, if_false, weighted_manhattan]
      have hc := abs_succ_cases (a.1 - g.1)
      have he : a.1 + 1 - g.1 = a.1 - g.1 + 1 := by ring
      rw [he]
      rcases hc with hc | hc <;> rw [hc] <;> push_cast <;> nlinarith
    · rw [step_cost_dy a (Or.inl rfl)]
      simp only [hFun, Bool.false_eq_true, if_false, weighted_manhattan]
      have hc := abs_pred_cases (a.2 - g.2)
      have he : a.2 - 1 - g.2 = a.2 - g.2 - 1 := by ring
      rw [he]
      rcases hc with hc | hc <;> rw [hc] <;> push_cast <;> nlinarith
    · rw [step_cost_dy a (Or.inr rfl)]
      simp only [hFun, Bool.false_eq_true, if_false, weighted_manhattan]
      have hc := abs_succ_cases (a.2 - g.2)
      have he : a.2 + 1 - g.2 = a.2 - g.2 + 1 := by ring
      rw [he]
      rcases hc with hc | hc <;> rw [hc] <;> push_cast <;> nlinarith
  · simp only [neighF, if_pos, neighbors_8, List.mem_cons, List.mem_singleton,
      List.not_mem_nil, or_false] at hb
    have hxm1 : a.1 - 1 - g.1 = a.1 - g.1 - 1 := by ring
    have hxp1 : a.1 + 1 - g.1 = a.1 - g.1 + 1 := by ring
    have hym1 : a.2 - 1 - g.2 = a.2 - g.2 - 1 := by ring
    have hyp1 : a.2 + 1 - g.2 = a.2 - g.2 + 1 := by ring
    have hcx1 := abs_pred_cases (a.1 - g.1)
    have hcx2 := abs_succ_cases (a.1 - g.1)
    have hcy1 := abs_pred_cases (a.2 - g.2)
    have hcy2 := abs_succ_cases (a.2 - g.2)
    rcases hb with rfl | rfl | rfl | rfl | rfl | rfl | rfl | rfl
    · rw [step_cost_dx a (Or.inl rfl)]
      simp only [hFun, if_pos]
      rw [weighted_octile_eq, weighted_octile_eq]
      simp only [hxm1]
      exact octQ_move_x _ (by tauto)
    · rw [step_cost_dx a (Or.inr rfl)]
      simp only [hFun, if_pos]
      rw [weighted_octile_eq, weighted_octile_eq]
      simp only [hxp1]
      exact octQ_move_x _ (by tauto)
    · rw [step_cost_dy a (Or.inl rfl)]
      simp only [hFun, if_pos]
      rw [weighted_octile_eq, weighted_octile_eq]
      simp only [hym1]
      exact octQ_move_y _ (by tauto)
    · rw [step_cost_dy a (Or.inr rfl)]
      simp only [hFun, if_pos]
      rw [weighted_octile_eq, weighted_octile_eq]
      simp only [hyp1]
      exact octQ_move_y _ (by tauto)
    · rw [step_cost_dd a (Or.inl rfl) (Or.inl rfl)]
      simp only [hFun, if_pos]
      rw [weighted_octile_eq, weighted_octile_eq]
      simp only [hxm1, hym1]
      exact octQ_move_d (by tauto) (by tauto)
    · rw [step_cost_dd a (Or.inl rfl) (Or.inr rfl)]
      simp only [hFun, if_pos]
      rw [weighted_octile_eq, weighted_octile_eq]
      simp only [hxm1, hyp1]
      exact octQ_move_d (by tauto) (by tauto)
    · rw [step_cost_dd a (Or.inr rfl) (Or.inl rfl)]
      simp only [hFun, if_pos]
      rw [weighted_octile_eq, weighted_octile_eq]
      simp only [hxp1, hym1]
      exact octQ_move_d (by tauto) (by tauto)
    · rw [step_cost_dd a (Or.inr rfl) (Or.inr rfl)]
      simp only [hFun, if_pos]
      rw [weighted_octile_eq, weighted_octile_eq]
      simp only [hxp1, hyp1]
      exact octQ_move_d (by tauto) (by tauto)

/-- Along any topology-adjacent chain, the heuristic toward a fixed target
drops by at most the accumulated step cost (path consistency). -/
theorem hFun_chain (d : Bool) (g : Coord) :
    ∀ (l : List Coord) (a b : Coord),
      List.Chain' (fun x y => y ∈ neighF d x) (a :: l) →
      (a :: l).getLast? = some b →
      hFun d a g ≤ pathCost (a :: l) + hFun d b g
  | [], a, b, _, hlast => by
    simp only [List.getLast?_singleton, Option.some.injEq] at hlast
    subst hlast
    simp [pathCost]
  | c :: l', a, b, hchain, hlast => by
    rw [List.chain'_cons] at hchain
    have ih := hFun_chain d g l' c b hchain.2 (by simpa using hlast)
    have hc := hFun_consistent d g hchain.1
    rw [pathCost_cons₂]
    linarith

/-- Admissibility: the heuristic never exceeds the cost of any
topology-adjacent path between its endpoints. -/
theorem hFun_le_pathCost (d : Bool) {a b : Coord} {p : List Coord}
    (hne : p ≠ []) (hchain : List.Chain' (fun x y => y ∈ neighF d x) p)
    (hhead : p.head? = some a) (hlast : p.getLast? = some b) :
    hFun d a b ≤ pathCost p := by
  match p, hne with
  | x :: l, _ =>
    simp only [List.head?_cons, Option.some.injEq] at hhead
    obtain rfl := hhead
    have hch := hFun_chain d b l x b hchain hlast
    rw [hFun_self] at hch
    linarith

/-! ## List utilities -/

theorem alookup_cons {α : Type} (k : Coord) (v : α) (t : List (Coord × α)) (n : Coord) :
    alookup ((k, v) :: t) n = if k = n then some v else alookup t n := rfl

theorem alookup_mem_keys {α : Type} :
    ∀ (l : List (Coord × α)) (n : Coord) (v : α), alookup l n = some v →
      n ∈ l.map Prod.fst
  | [], n, v, h => by simp [alookup] at h
  | (k, w) :: t, n, v, h => by
    rw [alookup_cons] at h
    by_cases hk : k = n
    · subst hk
      simp
    · rw [if_neg hk] at h
      simpa using Or.inr (alookup_mem_keys t n v h)

theorem keyLe_fst {a b : ℚ × Coord} (h : keyLe a b) : a.1 ≤ b.1 := by
  rcases h with h | ⟨h, _⟩
  · exact h.le
  · exact h.le

theorem keyLe_neg_fst {a b : ℚ × Coord} (h : ¬ keyLe a b) : b.1 ≤ a.1 := by
  by_contra hc
  exact h (Or.inl (lt_of_not_le hc))

theorem foldl_min_spec :
    ∀ (xs : List (ℚ × Coord)) (x : ℚ × Coord),
      (xs.foldl (fun m e => if keyLe m e then m else e) x) ∈ x :: xs ∧
      ∀ e ∈ x :: xs, (xs.foldl (fun m e => if keyLe m e then m else e) x).1 ≤ e.1
  | [], x => by simp
  | y :: ys, x => by
    by_cases h : keyLe x y
    · have ih := foldl_min_spec ys x
      constructor
      · simp only [List.foldl_cons, if_pos h]
        rcases List.mem_cons.mp ih.1 with h1 | h1
        · simp [h1]
        · simp [List.mem_cons, h1]
      · intro e he
        simp only [List.foldl_cons, if_pos h]
        rcases List.mem_cons.mp he with rfl | he'
        · exact ih.2 e (by simp)
        · rcases List.mem_cons.mp he' with rfl | he''
          · exact le_trans (ih.2 x (by simp)) (keyLe_fst h)
          · exact ih.2 e (by simp [he''])
    · have ih := foldl_min_spec ys y
      constructor
      · simp only [List.foldl_cons, if_neg h]
        rcases List.mem_cons.mp ih.1 with h1 | h1
        · simp [h1]
        · simp [List.mem_cons, h1]
      · intro e he
        simp only [List.foldl_cons, if_neg h]
        rcases List.mem_cons.mp he with rfl | he'
        · exact le_trans (ih.2 y (by simp)) (keyLe_neg_fst h)
        · exact ih.2 e he'

theorem selectMin_mem {l : List (ℚ × Coord)} {m : ℚ × Coord}
    (h : selectMin l = some m) : m ∈ l := by
  match l with
  | [] => simp [selectMin] at h
  | x :: xs =>
    simp only [selectMin, Option.some.injEq] at h
    subst h
    exact (foldl_min_spec xs x).1

theorem selectMin_minimal {l : List (ℚ × Coord)} {m : ℚ × Coord}
    (h : selectMin l = some m) : ∀ e ∈ l, m.1 ≤ e.1 := by
  match l with
  | [] => simp [selectMin] at h
  | x :: xs =>
    simp only [selectMin, Option.some.injEq] at h
    subst h
    exact (foldl_min_spec xs x).2

theorem selectMin_none {l : List (ℚ × Coord)} (h : selectMin l = none) : l = [] := by
  match l with
  | [] => rfl
  | x :: xs => simp [selectMin] at h

theorem eraseFirst_subset :
    ∀ (l : List (ℚ × Coord)) (e a : ℚ × Coord), a ∈ eraseFirst l e → a ∈ l
  | [], e, a, h => by simp [eraseFirst] at h
  | x :: xs, e, a, h => by
    simp only [eraseFirst] at h
    split_ifs at h with hx
    · exact List.mem_cons_of_mem x h
    · rcases List.mem_cons.mp h with rfl | h'
      · exact List.mem_cons_self _ _
      · exact List.mem_cons_of_mem x (eraseFirst_subset xs e a h')

theorem mem_eraseFirst_of_ne :
    ∀ (l : List (ℚ × Coord)) (e a : ℚ × Coord), a ∈ l → a ≠ e → a ∈ eraseFirst l e
  | [], e, a, h, _ => by simp at h
  | x :: xs, e, a, h, hne => by
    simp only [eraseFirst]
    split_ifs with hx
    · rcases List.mem_cons.mp h with rfl | h'
      · exact absurd hx hne
      · exact h'
    · rcases List.mem_cons.mp h with rfl | h'
      · exact List.mem_cons_self _ _
      · exact List.mem_cons_of_mem x (mem_eraseFirst_of_ne xs e a h' hne)

theorem length_eraseFirst_mem :
    ∀ (l : List (ℚ × Coord)) (e : ℚ × Coord), e ∈ l →
      l.length = (eraseFirst l e).length + 1
  | [], e, h => by simp at h
  | x :: xs, e, h => by
    simp only [eraseFirst]
    split_ifs with hx
    · simp
    · rcases List.mem_cons.mp h with rfl | h'
      · exact absurd rfl hx
      · simp only [List.length_cons, length_eraseFirst_mem xs e h']

theorem step_cost_ge_Y (a b : Coord) : COST_Y ≤ step_cost a b := by
  have h1 := COST_Y_le_X
  have h2 := COST_X_le_DIAG
  unfold step_cost
  split_ifs
  · linarith
  · linarith
  · linarith

theorem list_head?_some {α : Type} {l : List α} {a : α} (h : l.head? = some a) :
    ∃ t, l = a :: t := by
  match l with
  | [] => simp at h
  | x :: t =>
    simp only [List.head?_cons, Option.some.injEq] at h
    exact ⟨t, by rw [h]⟩

/-! ## Soundness of reconstructed paths -/

theorem cfChain_exists {P : AParams} {exc : Finset Coord} {st : AState}
    (hinv : AInvP P exc st) :
    ∀ (k : ℕ) (n : Coord) (v : ℚ), alookup st.gl n = some v → v ≤ k * COST_Y →
      ∃ l, CfChain st.cf P.start n l ∧
        l.head? = some P.start ∧ l.getLast? = some n ∧
        List.Chain' (fun x y => y ∈ neighF P.diagonal x) l ∧
        (∀ c ∈ l, c ∈ P.valid ∧ c ∉ P.blocked) ∧
        (∀ c ∈ l.tail, in_bounds c P.width P.height) ∧
        pathCost l ≤ v := by
  intro k
  induction k with
  | zero =>
    intro n v hg hv
    have hv0 : 0 ≤ v := hinv.g_nonneg n v hg
    have hveq : v = 0 := le_antisymm (by simpa using hv) hv0
    have hn : n = P.start := by
      rcases hinv.cf_dom n v hg with h | ⟨q, hq⟩
      · exact h
      · exfalso
        obtain ⟨_, _, vn, vq, hvn, hvq, hle⟩ := hinv.cf_link n q hq
        rw [hg] at hvn
        injection hvn with h'
        subst h'
        have h1 := hinv.g_nonneg q vq hvq
        have h2 := step_cost_ge_Y q n
        have h3 := COST_Y_pos
        linarith
    subst hn
    refine ⟨[P.start], CfChain.base hinv.cf_start, rfl, rfl, ?_, ?_, ?_, ?_⟩
    · exact List.chain'_singleton _
    · intro c hc
      simp only [List.mem_singleton] at hc
      subst hc
      exact hinv.start_ok
    · simp
    · simp [pathCost, hveq]
  | succ k ih =>
    intro n v hg hv
    rcases hinv.cf_dom n v hg with h | ⟨q, hq⟩
    · subst h
      have hv0 : v = 0 := by
        have hgs := hinv.g_start
        rw [hg] at hgs
        exact Option.some.inj hgs
      refine ⟨[P.start], CfChain.base hinv.cf_start, rfl, rfl, ?_, ?_, ?_, ?_⟩
      · exact List.chain'_singleton _
      · intro c hc
        simp only [List.mem_singleton] at hc
        subst hc
        exact hinv.start_ok
      · simp
      · simp [pathCost, hv0]
    · obtain ⟨hadj, hok, vn, vq, hvn, hvq, hle⟩ := hinv.cf_link n q hq
      have hvnv : vn = v := by
        rw [hg] at hvn
        exact (Option.some.inj hvn).symm
      subst hvnv
      have hstep := step_cost_ge_Y q n
      have hq_bound : vq ≤ k * COST_Y := by
        have hk : ((k : ℚ)) * COST_Y + COST_Y = (k + 1) * COST_Y := by ring
        push_cast at hv
        linarith
      obtain ⟨l₀, hchain0, hhead0, hlast0, hch0, hmem0, htail0, hcost0⟩ :=
        ih q vq hvq hq_bound
      obtain ⟨t0, ht0⟩ := list_head?_some hhead0
      refine ⟨l₀ ++ [n], CfChain.step hchain0 hq, ?_, ?_, ?_, ?_, ?_, ?_⟩
      · rw [ht0]
        simp
      · exact List.getLast?_concat _
      · rw [List.chain'_append]
        refine ⟨hch0, List.chain'_singleton _, ?_⟩
        intro x hx y hy
        rw [hlast0] at hx
        simp only [Option.mem_def, Option.some.injEq] at hx
        simp only [List.head?_cons, Option.mem_def, Option.some.injEq] at hy
        subst hx
        subst hy
        exact hadj
      · intro c hc
        rcases List.mem_append.mp hc with hc | hc
        · exact hmem0 c hc
        · simp only [List.mem_singleton] at hc
          subst hc
          exact ⟨hok.2.1, hok.2.2⟩
      · intro c hc
        rw [ht0] at hc
        simp only [List.cons_append, List.tail_cons] at hc
        rcases List.mem_append.mp hc with hc | hc
        · exact htail0 c (by rw [ht0]; simpa using hc)
        · simp only [List.mem_singleton] at hc
          subst hc
          exact hok.1
      · rw [pathCost_concat l₀ q n hlast0]
        linarith

theorem cfChain_ne_nil {cf : List (Coord × Coord)} {start n : Coord} {l : List Coord}
    (h : CfChain cf start n l) : l ≠ [] := by
  cases h <;> simp

theorem cfChain_props {P : AParams} {exc : Finset Coord} {st : AState}
    (hinv : AInvP P exc st) {n : Coord} {l : List Coord}
    (h : CfChain st.cf P.start n l) :
    l.Nodup ∧ ∃ v, alookup st.gl n = some v ∧
      (∀ c ∈ l, ∃ vc, alookup st.gl c = some vc ∧ vc ≤ v) ∧
      (∀ c ∈ l.dropLast, ∃ vc, alookup st.gl c = some vc ∧ vc < v) := by
  induction h with
  | base h0 =>
    refine ⟨by simp, 0, hinv.g_start, ?_, by simp⟩
    intro c hc
    simp only [List.mem_singleton] at hc
    subst hc
    exact ⟨0, hinv.g_start, le_refl 0⟩
  | step hch hlk ih =>
    rename_i q m l₀
    obtain ⟨hnd0, vq', hvq', hall0, hdrop0⟩ := ih
    obtain ⟨_, _, vm, vq, hvm, hvq, hle⟩ := hinv.cf_link m q hlk
    have hvqq : vq' = vq := by
      rw [hvq'] at hvq
      exact Option.some.inj hvq
    subst hvqq
    have hstep := step_cost_pos q m
    have hm_notin : m ∉ l₀ := by
      intro hmem
      obtain ⟨vc, hvc, hvcle⟩ := hall0 m hmem
      rw [hvm] at hvc
      have : vm = vc := Option.some.inj hvc
      linarith [this ▸ hvcle]
    refine ⟨?_, vm, hvm, ?_, ?_⟩
    · simp only [List.nodup_append, List.nodup_cons, List.not_mem_nil,
        not_false_iff, List.nodup_nil, and_true, true_and]
      refine ⟨hnd0, fun a ha hb => ?_⟩
      simp only [List.mem_singleton] at hb
      subst hb
      exact hm_notin ha
    · intro c hc
      rcases List.mem_append.mp hc with hc | hc
      · obtain ⟨vc, hvc, hvcle⟩ := hall0 c hc
        exact ⟨vc, hvc, by linarith⟩
      · simp only [List.mem_singleton] at hc
        subst hc
        exact ⟨vm, hvm, le_refl _⟩
    · rw [List.dropLast_concat]
      intro c hc
      obtain ⟨vc, hvc, hvcle⟩ := hall0 c hc
      exact ⟨vc, hvc, by linarith⟩

theorem cfChain_keys {cf : List (Coord × Coord)} {start n : Coord} {l : List Coord}
    (h : CfChain cf start n l) : ∀ c ∈ l, c = start ∨ c ∈ cf.map Prod.fst := by
  induction h with
  | base h0 =>
    intro c hc
    simp only [List.mem_singleton] at hc
    exact Or.inl hc
  | step hch hlk ih =>
    rename_i q m l₀
    intro c hc
    rcases List.mem_append.mp hc with hc | hc
    · exact ih c hc
    · simp only [List.mem_singleton] at hc
      subst hc
      exact Or.inr (alookup_mem_keys _ _ _ hlk)

theorem cfChain_length {P : AParams} {exc : Finset Coord} {st : AState}
    (hinv : AInvP P exc st) {n : Coord} {l : List Coord}
    (h : CfChain st.cf P.start n l) : l.length ≤ st.cf.length + 1 := by
  have hnd := (cfChain_props hinv h).1
  have hkeys := cfChain_keys h
  have hsub : l.toFinset ⊆ insert P.start (st.cf.map Prod.fst).toFinset := by
    intro c hc
    rw [List.mem_toFinset] at hc
    rcases hkeys c hc with h1 | h1
    · subst h1
      exact Finset.mem_insert_self _ _
    · exact Finset.mem_insert_of_mem (List.mem_toFinset.mpr h1)
  have h1 : l.toFinset.card = l.length := List.toFinset_card_of_nodup hnd
  have h2 := Finset.card_le_card hsub
  have h3 := Finset.card_insert_le P.start (st.cf.map Prod.fst).toFinset
  have h4 := (st.cf.map Prod.fst).toFinset_card_le
  simp only [List.length_map] at h4
  omega

theorem reconstructF_cfChain {cf : List (Coord × Coord)} {start : Coord} :
    ∀ {n : Coord} {l : List Coord}, CfChain cf start n l →
      ∀ (fuel : ℕ) (acc : List Coord), l.length ≤ fuel + 1 →
        reconstructF fuel cf n acc = l ++ acc := by
  intro n l h
  induction h with
  | base h0 =>
    intro fuel acc _
    cases fuel with
    | zero => simp [reconstructF]
    | succ f => simp [reconstructF, h0]
  | step hch hlk ih =>
    rename_i q m l₀
    intro fuel acc hlen
    have hne := cfChain_ne_nil hch
    cases fuel with
    | zero =>
      exfalso
      simp only [List.length_append, List.length_singleton] at hlen
      have : l₀.length = 0 := by omega
      exact hne (List.length_eq_zero.mp this)
    | succ f =>
      simp only [reconstructF, hlk]
      rw [ih f (m :: acc) (by simp at hlen ⊢; omega)]
      simp

theorem recSound {P : AParams} {exc : Finset Coord} {st : AState}
    (hinv : AInvP P exc st) {n : Coord} {v : ℚ}
    (hg : alookup st.gl n = some v) :
    PathOkB P.width P.height P.diagonal P.valid P.blocked P.start n
      (reconstructF (st.cf.length + 1) st.cf n []) ∧
    pathCost (reconstructF (st.cf.length + 1) st.cf n []) ≤ v := by
  have hkb : v ≤ (⌈v / COST_Y⌉₊ : ℚ) * COST_Y := by
    have h1 := Nat.le_ceil (v / COST_Y)
    have h2 := COST_Y_pos
    rw [div_le_iff₀ h2] at h1
    linarith
  obtain ⟨l, hchain, hhead, hlast, hch, hmem, htail, hcost⟩ :=
    cfChain_exists hinv ⌈v / COST_Y⌉₊ n v hg hkb
  have hlen := cfChain_length hinv hchain
  have hrec := reconstructF_cfChain hchain (st.cf.length + 1) [] (by omega)
  rw [hrec, List.append_nil]
  refine ⟨⟨⟨?_, hhead, hlast, hch, hmem⟩, htail⟩, hcost⟩
  intro h0
  rw [h0] at hhead
  simp at hhead

/-! ## Frontier walk and optimality at pop -/

theorem walkLemma {P : AParams} {st : AState} (hinv : AInvP P ∅ st) :
    ∀ (l : List Coord) (a : Coord) (va pc : ℚ),
      alookup st.gl a = some va → va ≤ pc →
      List.Chain' (fun x y => y ∈ neighF P.diagonal x) (a :: l) →
      (∀ c ∈ l, okSucc P c) →
      pc + pathCost (a :: l) ≤ P.cable_limit →
      ∃ (m : Coord) (vm : ℚ) (suf : List Coord),
        alookup st.gl m = some vm ∧
        List.Chain' (fun x y => y ∈ neighF P.diagonal x) (m :: suf) ∧
        (m :: suf).getLast? = (a :: l).getLast? ∧
        vm + pathCost (m :: suf) ≤ pc + pathCost (a :: l) ∧
        (m ∉ st.closed ∨ suf = [])
  | [], a, va, pc, hga, hva, _, _, _ =>
    ⟨a, va, [], hga, List.chain'_singleton _, rfl, by simp [pathCost]; linarith,
      Or.inr rfl⟩
  | b :: l', a, va, pc, hga, hva, hchain, hok, hbudget => by
    by_cases hcl : a ∈ st.closed
    · rw [List.chain'_cons] at hchain
      have hb_ok : okSucc P b := hok b (by simp)
      have hcost_nn := pathCost_nonneg (b :: l')
      have hstep_budget : va + step_cost a b ≤ P.cable_limit := by
        rw [pathCost_cons₂] at hbudget
        linarith
      obtain ⟨vb, hvb, hvb_le⟩ :=
        hinv.closed_exp a hcl (Finset.not_mem_empty a) b hchain.1 hb_ok va hga
          hstep_budget
      have hpc' : vb ≤ pc + step_cost a b := by linarith
      have hbudget' : (pc + step_cost a b) + pathCost (b :: l') ≤ P.cable_limit := by
        rw [pathCost_cons₂] at hbudget
        linarith
      obtain ⟨m, vm, suf, h1, h2, h3, h4, h5⟩ :=
        walkLemma hinv l' b vb (pc + step_cost a b) hvb hpc' hchain.2
          (fun c hc => hok c (by simp [hc])) hbudget'
      refine ⟨m, vm, suf, h1, h2, ?_, ?_, h5⟩
      · rw [h3, List.getLast?_cons_cons]
      · rw [pathCost_cons₂]
        linarith
    · refine ⟨a, va, b :: l', hga, hchain, rfl, by linarith, Or.inl hcl⟩

theorem popOpt {P : AParams} {st : AState} (hinv : AInvP P ∅ st) {f0 : ℚ}
    {cur : Coord} (hpop : selectMin st.openH = some (f0, cur))
    (hcur : cur ∉ st.closed) :
    ∀ p, PathOkB P.width P.height P.diagonal P.valid P.blocked P.start cur p →
      pathCost p ≤ P.cable_limit →
      ∃ vc, alookup st.gl cur = some vc ∧ vc ≤ pathCost p := by
  intro p hp hplim
  obtain ⟨⟨hne, hhead, hlast, hchain, hmem⟩, htail⟩ := hp
  obtain ⟨l, rfl⟩ := list_head?_some hhead
  have hok : ∀ c ∈ l, okSucc P c := by
    intro c hc
    have h1 := hmem c (by simp [hc])
    have h2 := htail c (by simpa using hc)
    exact ⟨h2, h1.1, h1.2⟩
  have hbudget : (0 : ℚ) + pathCost (P.start :: l) ≤ P.cable_limit := by linarith
  obtain ⟨m, vm, suf, hvm, hch, hlast', hbound, hdisj⟩ :=
    walkLemma hinv l P.start 0 0 hinv.g_start (le_refl 0) hchain hok hbudget
  rw [hlast] at hlast'
  rcases hdisj with hmop | hsuf
  · have hvm_lim : vm ≤ P.cable_limit := by
      have := pathCost_nonneg (m :: suf)
      linarith
    obtain ⟨fm, hfm_mem, hfm_le⟩ := hinv.open_cov m vm hmop hvm hvm_lim
    have hmin := selectMin_minimal hpop (fm, m) hfm_mem
    obtain ⟨vc, hvc, hfc, _⟩ := hinv.open_dom f0 cur (selectMin_mem hpop)
    have hcons : hFun P.diagonal m P.goal ≤
        pathCost (m :: suf) + hFun P.diagonal cur P.goal :=
      hFun_chain P.diagonal P.goal suf m cur hch hlast'
    refine ⟨vc, hvc, ?_⟩
    simp only at hmin
    linarith
  · subst hsuf
    simp only [List.getLast?_singleton, Option.some.injEq] at hlast'
    subst hlast'
    refine ⟨vm, hvm, ?_⟩
    simp only [pathCost] at hbound
    linarith

/-! ## Relaxation case analysis and invariant preservation -/

theorem option_eq_none_or_some {α : Type} (o : Option α) :
    o = none ∨ ∃ v, o = some v := by
  cases o
  · exact Or.inl rfl
  · exact Or.inr ⟨_, rfl⟩

theorem relax_casesD (P : AParams) (S : AState) (cur m : Coord) :
    (¬ okSucc P m ∧ relax P S cur m = S) ∨
    (okSucc P m ∧
      P.cable_limit < (alookup S.gl cur).getD 0 + step_cost cur m ∧
      relax P S cur m = S) ∨
    (okSucc P m ∧
      (alookup S.gl cur).getD 0 + step_cost cur m ≤ P.cable_limit ∧
      (∃ v, alookup S.gl m = some v ∧
        v ≤ (alookup S.gl cur).getD 0 + step_cost cur m) ∧
      relax P S cur m = S) ∨
    (okSucc P m ∧
      (alookup S.gl cur).getD 0 + step_cost cur m ≤ P.cable_limit ∧
      (alookup S.gl m = none ∨
        ∃ v, alookup S.gl m = some v ∧
          (alookup S.gl cur).getD 0 + step_cost cur m < v) ∧
      relax P S cur m =
        { openH := ((alookup S.gl cur).getD 0 + step_cost cur m +
            hFun P.diagonal m P.goal, m) :: S.openH,
          gl := (m, (alookup S.gl cur).getD 0 + step_cost cur m) :: S.gl,
          cf := (m, cur) :: S.cf,
          closed := S.closed }) := by
  by_cases hb : in_bounds m P.width P.height
  · by_cases hv : m ∈ P.valid
    · by_cases hbl : m ∈ P.blocked
      · refine Or.inl ⟨fun h => h.2.2 hbl, ?_⟩
        unfold relax
        rw [if_neg (not_not_intro hb), if_neg (not_not_intro hv), if_pos hbl]
      · by_cases hlim : P.cable_limit < (alookup S.gl cur).getD 0 + step_cost cur m
        · refine Or.inr (Or.inl ⟨⟨hb, hv, hbl⟩, hlim, ?_⟩)
          unfold relax
          rw [if_neg (not_not_intro hb), if_neg (not_not_intro hv), if_neg hbl,
            if_pos hlim]
        · rcases option_eq_none_or_some (alookup S.gl m) with hgm | ⟨v, hgm⟩
          · refine Or.inr (Or.inr (Or.inr ⟨⟨hb, hv, hbl⟩, le_of_not_lt hlim,
              Or.inl hgm, ?_⟩))
            unfold relax
            rw [if_neg (not_not_intro hb), if_neg (not_not_intro hv), if_neg hbl,
              if_neg hlim]
            simp only [hgm]
          · by_cases hlt : (alookup S.gl cur).getD 0 + step_cost cur m < v
            · refine Or.inr (Or.inr (Or.inr ⟨⟨hb, hv, hbl⟩, le_of_not_lt hlim,
                Or.inr ⟨v, hgm, hlt⟩, ?_⟩))
              unfold relax
              rw [if_neg (not_not_intro hb), if_neg (not_not_intro hv), if_neg hbl,
                if_neg hlim]
              simp only [hgm, if_pos hlt]
            · refine Or.inr (Or.inr (Or.inl ⟨⟨hb, hv, hbl⟩, le_of_not_lt hlim,
                ⟨v, hgm, le_of_not_lt hlt⟩, ?_⟩))
              unfold relax
              rw [if_neg (not_not_intro hb), if_neg (not_not_intro hv), if_neg hbl,
                if_neg hlim]
              simp only [hgm, if_neg hlt]
    · refine Or.inl ⟨fun h => hv h.2.1, ?_⟩
      unfold relax
      rw [if_neg (not_not_intro hb), if_pos hv]
  · refine Or.inl ⟨fun h => hb h.1, ?_⟩
    unfold relax
    rw [if_pos hb]

theorem mem_cellsFin_of {P : AParams} {c : Coord}
    (hb : in_bounds c P.width P.height) (hv : c ∈ P.valid) : c ∈ cellsFin P := by
  unfold cellsFin
  refine Finset.mem_union_left _ ?_
  rw [Finset.mem_filter]
  refine ⟨?_, hv⟩
  rw [Finset.mem_product]
  obtain ⟨h1, h2, h3, h4⟩ := hb
  constructor
  · rw [Finset.mem_Icc]
    omega
  · rw [Finset.mem_Icc]
    omega

theorem start_mem_cellsFin (P : AParams) : P.start ∈ cellsFin P := by
  unfold cellsFin
  exact Finset.mem_union_right _ (Finset.mem_singleton_self _)

theorem ne_of_mem_neighF {d : Bool} {cur m : Coord} (h : m ∈ neighF d cur) :
    m ≠ cur := fun he => not_mem_neighF_self d cur (he ▸ h)

/-- One relaxation from a closed cell preserves the invariant; moreover the
closed set is unchanged, `g(cur)` is unchanged, all `g` values only decrease,
a successor that passes all checks ends with `g` at most `g(cur) + step`, and
the heap grows by at most one entry. -/
theorem relax_preserve {P : AParams} {exc : Finset Coord} {S : AState}
    {cur m : Coord} (hinv : AInvP P exc S) (hcl : cur ∈ S.closed)
    (hm : m ∈ neighF P.diagonal cur) :
    AInvP P exc (relax P S cur m) ∧
    (relax P S cur m).closed = S.closed ∧
    alookup (relax P S cur m).gl cur = alookup S.gl cur ∧
    (∀ n v, alookup S.gl n = some v →
      ∃ v', alookup (relax P S cur m).gl n = some v' ∧ v' ≤ v) ∧
    (okSucc P m → ∀ vc, alookup S.gl cur = some vc →
      vc + step_cost cur m ≤ P.cable_limit →
      ∃ vm, alookup (relax P S cur m).gl m = some vm ∧
        vm ≤ vc + step_cost cur m) ∧
    (relax P S cur m).openH.length ≤ S.openH.length + 1 := by
  have hmcur : m ≠ cur := ne_of_mem_neighF hm
  obtain ⟨vc, hvc⟩ := hinv.closed_dom cur hcl
  have hgetd : (alookup S.gl cur).getD 0 = vc := by rw [hvc]; rfl
  have hvc0 : 0 ≤ vc := hinv.g_nonneg cur vc hvc
  have hstep := step_cost_pos cur m
  rcases relax_casesD P S cur m with ⟨hno, heq⟩ | ⟨hok, hlim, heq⟩ |
    ⟨hok, hlim, ⟨v, hgm, hvle⟩, heq⟩ | ⟨hok, hlim, hcase, heq⟩
  · rw [heq]
    exact ⟨hinv, rfl, rfl, fun n v h => ⟨v, h, le_refl v⟩,
      fun h => absurd h hno, by omega⟩
  · rw [heq]
    rw [hgetd] at hlim
    refine ⟨hinv, rfl, rfl, fun n v h => ⟨v, h, le_refl v⟩, ?_, by omega⟩
    intro _ vc' hvc' hble
    rw [hvc] at hvc'
    obtain rfl := Option.some.inj hvc'
    linarith
  · rw [heq]
    rw [hgetd] at hvle
    refine ⟨hinv, rfl, rfl, fun n v h => ⟨v, h, le_refl v⟩, ?_, by omega⟩
    intro _ vc' hvc' _
    rw [hvc] at hvc'
    obtain rfl := Option.some.inj hvc'
    exact ⟨v, hgm, hvle⟩
  · rw [hgetd] at hlim hcase heq
    -- the target cell is not closed, else the update could not fire
    have hm_notcl : m ∉ S.closed := by
      intro hmcl
      rcases hcase with hnone | ⟨v, hgm, hlt⟩
      · obtain ⟨w, hw⟩ := hinv.closed_dom m hmcl
        rw [hw] at hnone
        exact Option.noConfusion hnone
      · obtain ⟨hpath, hcost⟩ := recSound hinv hvc
        set pc := reconstructF (S.cf.length + 1) S.cf cur [] with hpc
        obtain ⟨⟨hne, hhead, hlast, hchain, hmem⟩, htail⟩ := hpath
        obtain ⟨t, ht⟩ := list_head?_some hhead
        have hext : PathOkB P.width P.height P.diagonal P.valid P.blocked
            P.start m (pc ++ [m]) := by
          refine ⟨⟨by simp, ?_, List.getLast?_concat _, ?_, ?_⟩, ?_⟩
          · rw [ht]
            simp
          · rw [List.chain'_append]
            refine ⟨hchain, List.chain'_singleton _, ?_⟩
            intro x hx y hy
            rw [hlast] at hx
            simp only [Option.mem_def, Option.some.injEq] at hx
            simp only [List.head?_cons, Option.mem_def, Option.some.injEq] at hy
            subst hx
            subst hy
            exact hm
          · intro c hc
            rcases List.mem_append.mp hc with hc | hc
            · exact hmem c hc
            · simp only [List.mem_singleton] at hc
              subst hc
              exact ⟨hok.2.1, hok.2.2⟩
          · intro c hc
            rw [ht] at hc
            simp only [List.cons_append, List.tail_cons] at hc
            rcases List.mem_append.mp hc with hc | hc
            · exact htail c (by rw [ht]; simpa using hc)
            · simp only [List.mem_singleton] at hc
              subst hc
              exact hok.1
        have hcost' : pathCost (pc ++ [m]) ≤ P.cable_limit := by
          rw [pathCost_concat pc cur m hlast]
          linarith
        obtain ⟨v', hv', hle'⟩ := hinv.closed_opt m hmcl (pc ++ [m]) hext hcost'
        rw [hgm] at hv'
        obtain rfl := Option.some.inj hv'
        rw [pathCost_concat pc cur m hlast] at hle'
        linarith
    have hm_start : m ≠ P.start := by
      intro hms
      subst hms
      rcases hcase with hnone | ⟨v, hgm, hlt⟩
      · rw [hinv.g_start] at hnone
        exact Option.noConfusion hnone
      · rw [hinv.g_start] at hgm
        obtain rfl := Option.some.inj hgm
        linarith
    rw [heq]
    have hlook : ∀ n, alookup ((m, vc + step_cost cur m) :: S.gl) n =
        if m = n then some (vc + step_cost cur m) else alookup S.gl n := by
      intro n
      rfl
    have hlook_m : alookup ((m, vc + step_cost cur m) :: S.gl) m =
        some (vc + step_cost cur m) := by
      rw [hlook, if_pos rfl]
    have hlook_ne : ∀ n, n ≠ m → alookup ((m, vc + step_cost cur m) :: S.gl) n =
        alookup S.gl n := by
      intro n hn
      rw [hlook, if_neg (Ne.symm hn)]
    have hcf : ∀ n, alookup ((m, cur) :: S.cf) n =
        if m = n then some cur else alookup S.cf n := fun n => rfl
    refine ⟨?_, rfl, hlook_ne cur (Ne.symm hmcur), ?_, ?_, by simp⟩
    · constructor
      · exact hinv.start_ok
      · -- open_dom
        intro f n hfn
        rcases List.mem_cons.mp hfn with hfn | hfn
        · obtain ⟨rfl, rfl⟩ := Prod.mk.injEq _ _ _ _ ▸ hfn
          exact ⟨vc + step_cost cur n, hlook_m, le_refl _,
            mem_cellsFin_of hok.1 hok.2.1⟩
        · obtain ⟨v', hv', hle', hcell⟩ := hinv.open_dom f n hfn
          by_cases hn : n = m
          · subst hn
            rcases hcase with hnone | ⟨v, hgm, hlt⟩
            · rw [hv'] at hnone
              exact Option.noConfusion hnone
            · rw [hgm] at hv'
              obtain rfl := Option.some.inj hv'
              refine ⟨vc + step_cost cur n, hlook_m, ?_, hcell⟩
              linarith
          · exact ⟨v', by rw [hlook_ne n hn]; exact hv', hle', hcell⟩
      · -- open_cov
        intro n v' hncl hv' hvlim
        by_cases hn : n = m
        · subst hn
          rw [hlook_m] at hv'
          obtain rfl := Option.some.inj hv'
          exact ⟨vc + step_cost cur n + hFun P.diagonal n P.goal,
            List.mem_cons_self _ _, le_refl _⟩
        · rw [hlook_ne n hn] at hv'
          obtain ⟨f, hfmem, hfle⟩ := hinv.open_cov n v' hncl hv' hvlim
          exact ⟨f, List.mem_cons_of_mem _ hfmem, hfle⟩
      · -- g_start
        rw [hlook_ne P.start (Ne.symm hm_start)]
        exact hinv.g_start
      · -- g_nonneg
        intro n v' hv'
        by_cases hn : n = m
        · subst hn
          rw [hlook_m] at hv'
          obtain rfl := Option.some.inj hv'
          linarith
        · rw [hlook_ne n hn] at hv'
          exact hinv.g_nonneg n v' hv'
      · -- cf_link
        intro n q hq
        rw [hcf] at hq
        by_cases hn : m = n
        · subst hn
          rw [if_pos rfl] at hq
          obtain rfl := Option.some.inj hq
          refine ⟨hm, hok, vc + step_cost cur m, vc, hlook_m, ?_, le_refl _⟩
          rw [hlook_ne cur (Ne.symm hmcur)]
          exact hvc
        · rw [if_neg hn] at hq
          obtain ⟨hadj, hoks, vn, vq, hvn, hvq, hle⟩ := hinv.cf_link n q hq
          refine ⟨hadj, hoks, vn, ?_⟩
          by_cases hqm : q = m
          · subst hqm
            rcases hcase with hnone | ⟨v, hgm, hlt⟩
            · rw [hvq] at hnone
              exact Option.noConfusion hnone
            · rw [hgm] at hvq
              obtain rfl := Option.some.inj hvq
              refine ⟨vc + step_cost cur q, hlook_ne n (fun h => hn h.symm) ▸ hvn,
                hlook_m, ?_⟩
              linarith
          · exact ⟨vq, hlook_ne n (fun h => hn h.symm) ▸ hvn,
              hlook_ne q hqm ▸ hvq, hle⟩
      · -- cf_dom
        intro n v' hv'
        by_cases hn : n = m
        · subst hn
          exact Or.inr ⟨cur, by rw [hcf, if_pos rfl]⟩
        · rw [hlook_ne n hn] at hv'
          rcases hinv.cf_dom n v' hv' with h | ⟨q, hq⟩
          · exact Or.inl h
          · exact Or.inr ⟨q, by rw [hcf, if_neg (fun he => hn he.symm)]; exact hq⟩
      · -- cf_start
        rw [hcf, if_neg hm_start]
        exact hinv.cf_start
      · -- goal_unclosed
        exact hinv.goal_unclosed
      · -- closed_dom
        intro n hn
        have hnm : n ≠ m := fun he => hm_notcl (he ▸ hn)
        obtain ⟨v', hv'⟩ := hinv.closed_dom n hn
        exact ⟨v', by rw [hlook_ne n hnm]; exact hv'⟩
      · -- closed_opt
        intro n hn p hp hplim
        have hnm : n ≠ m := fun he => hm_notcl (he ▸ hn)
        obtain ⟨v', hv', hle'⟩ := hinv.closed_opt n hn p hp hplim
        exact ⟨v', by rw [hlook_ne n hnm]; exact hv', hle'⟩
      · -- closed_exp
        intro n hn hnexc m'' hm'' hok'' vn hvn hbud
        have hnm : n ≠ m := fun he => hm_notcl (he ▸ hn)
        rw [hlook_ne n hnm] at hvn
        obtain ⟨vm'', hvm'', hle''⟩ :=
          hinv.closed_exp n hn hnexc m'' hm'' hok'' vn hvn hbud
        by_cases hqm : m'' = m
        · subst hqm
          rcases hcase with hnone | ⟨v, hgm, hlt⟩
          · rw [hvm''] at hnone
            exact Option.noConfusion hnone
          · rw [hgm] at hvm''
            obtain rfl := Option.some.inj hvm''
            refine ⟨vc + step_cost cur m'', hlook_m, ?_⟩
            linarith
        · exact ⟨vm'', hlook_ne m'' hqm ▸ hvm'', hle''⟩
    · -- monotone decrease
      intro n v' hv'
      by_cases hn : n = m
      · subst hn
        rcases hcase with hnone | ⟨v, hgm, hlt⟩
        · rw [hv'] at hnone
          exact Option.noConfusion hnone
        · rw [hgm] at hv'
          obtain rfl := Option.some.inj hv'
          exact ⟨vc + step_cost cur n, hlook_m, by linarith⟩
      · exact ⟨v', by rw [hlook_ne n hn]; exact hv', le_refl _⟩
    · -- post-condition for the relaxed successor
      intro _ vc' hvc' _
      rw [hvc] at hvc'
      obtain rfl := Option.some.inj hvc'
      exact ⟨vc + step_cost cur m, hlook_m, le_refl _⟩

theorem expand_fold {P : AParams} {cur : Coord} :
    ∀ (L : List Coord) (s : AState), (∀ m ∈ L, m ∈ neighF P.diagonal cur) →
      AInvP P {cur} s → cur ∈ s.closed →
      AInvP P {cur} (L.foldl (fun a m => relax P a cur m) s) ∧
      (L.foldl (fun a m => relax P a cur m) s).closed = s.closed ∧
      alookup (L.foldl (fun a m => relax P a cur m) s).gl cur = alookup s.gl cur ∧
      (∀ n v, alookup s.gl n = some v →
        ∃ v', alookup (L.foldl (fun a m => relax P a cur m) s).gl n = some v' ∧
          v' ≤ v) ∧
      (L.foldl (fun a m => relax P a cur m) s).openH.length ≤
        s.openH.length + L.length ∧
      (∀ m ∈ L, okSucc P m →
        ∀ vc, alookup (L.foldl (fun a m => relax P a cur m) s).gl cur = some vc →
          vc + step_cost cur m ≤ P.cable_limit →
          ∃ vm, alookup (L.foldl (fun a m => relax P a cur m) s).gl m = some vm ∧
            vm ≤ vc + step_cost cur m)
  | [], s, _, hinv, _ => by
    exact ⟨hinv, rfl, rfl, fun n v h => ⟨v, h, le_refl v⟩, by simp, by simp⟩
  | m :: L', s, hL, hinv, hcl => by
    have hm := hL m (by simp)
    obtain ⟨hinv₁, hcl₁, hgcur₁, hmono₁, hpost₁, hlen₁⟩ :=
      relax_preserve hinv hcl hm
    have hcl₁' : cur ∈ (relax P s cur m).closed := by rw [hcl₁]; exact hcl
    obtain ⟨hinv', hcl', hgcur', hmono', hlen', hpost'⟩ :=
      expand_fold L' (relax P s cur m) (fun x hx => hL x (by simp [hx])) hinv₁ hcl₁'
    simp only [List.foldl_cons]
    refine ⟨hinv', by rw [hcl', hcl₁], by rw [hgcur', hgcur₁], ?_, ?_, ?_⟩
    · intro n v hv
      obtain ⟨v₁, hv₁, hle₁⟩ := hmono₁ n v hv
      obtain ⟨v', hv', hle'⟩ := hmono' n v₁ hv₁
      exact ⟨v', hv', le_trans hle' hle₁⟩
    · simp only [List.length_cons]
      omega
    · intro x hx hxok vc hvc hbud
      rcases List.mem_cons.mp hx with rfl | hx'
      · have hvc₁ : alookup (relax P s cur x).gl cur = some vc := by
          rw [← hgcur']
          exact hvc
        have hvc₀ : alookup s.gl cur = some vc := by
          rw [← hgcur₁]
          exact hvc₁
        obtain ⟨vm₁, hvm₁, hlem₁⟩ := hpost₁ hxok vc hvc₀ hbud
        obtain ⟨vm', hvm', hlem'⟩ := hmono' x vm₁ hvm₁
        exact ⟨vm', hvm', le_trans hlem' hlem₁⟩
      · exact hpost' x hx' hxok vc hvc hbud

theorem expand_preserve {P : AParams} {S : AState} {cur : Coord}
    (hinv : AInvP P {cur} S) (hcl : cur ∈ S.closed) :
    AInvP P ∅ (expand P S cur) ∧
    (expand P S cur).closed = S.closed ∧
    (expand P S cur).openH.length ≤ S.openH.length + 8 := by
  obtain ⟨hinv', hcl', hgcur', hmono', hlen', hpost'⟩ :=
    @expand_fold P cur (neighF P.diagonal cur) S
      (fun m hm => hm) hinv hcl
  refine ⟨?_, hcl', le_trans hlen' (by have := length_neighF_le P.diagonal cur; omega)⟩
  refine ⟨hinv'.start_ok, hinv'.open_dom, hinv'.open_cov, hinv'.g_start,
    hinv'.g_nonneg, hinv'.cf_link, hinv'.cf_dom, hinv'.cf_start,
    hinv'.goal_unclosed, hinv'.closed_dom, hinv'.closed_opt, ?_⟩
  intro n hn _ m hm hok vn hvn hbud
  by_cases hnc : n = cur
  · subst hnc
    exact hpost' m hm hok vn hvn hbud
  · exact hinv'.closed_exp n hn (by simp [hnc]) m hm hok vn hvn hbud

theorem pop_preserve_closed {P : AParams} {st : AState} {top : ℚ × Coord}
    (hinv : AInvP P ∅ st) (hskip : top.2 ∈ st.closed) :
    AInvP P ∅ { st with openH := eraseFirst st.openH top } := by
  refine ⟨hinv.start_ok, ?_, ?_, hinv.g_start, hinv.g_nonneg, hinv.cf_link,
    hinv.cf_dom, hinv.cf_start, hinv.goal_unclosed, hinv.closed_dom,
    hinv.closed_opt, hinv.closed_exp⟩
  · intro f n hfn
    exact hinv.open_dom f n (eraseFirst_subset _ _ _ hfn)
  · intro n v hncl hv hvlim
    obtain ⟨f, hfmem, hfle⟩ := hinv.open_cov n v hncl hv hvlim
    refine ⟨f, mem_eraseFirst_of_ne _ _ _ hfmem ?_, hfle⟩
    intro he
    have hn2 : n = top.2 := congrArg Prod.snd he
    exact hncl (by rw [hn2]; exact hskip)

theorem pop_preserve_budget {P : AParams} {st : AState} {top : ℚ × Coord}
    (hinv : AInvP P ∅ st)
    (hbig : P.cable_limit < (alookup st.gl top.2).getD 0) :
    AInvP P ∅ { st with openH := eraseFirst st.openH top } := by
  refine ⟨hinv.start_ok, ?_, ?_, hinv.g_start, hinv.g_nonneg, hinv.cf_link,
    hinv.cf_dom, hinv.cf_start, hinv.goal_unclosed, hinv.closed_dom,
    hinv.closed_opt, hinv.closed_exp⟩
  · intro f n hfn
    exact hinv.open_dom f n (eraseFirst_subset _ _ _ hfn)
  · intro n v hncl hv hvlim
    obtain ⟨f, hfmem, hfle⟩ := hinv.open_cov n v hncl hv hvlim
    refine ⟨f, mem_eraseFirst_of_ne _ _ _ hfmem ?_, hfle⟩
    intro he
    have hn2 : n = top.2 := congrArg Prod.snd he
    rw [← hn2, hv] at hbig
    simp only [Option.getD_some] at hbig
    linarith

theorem close_preserve {P : AParams} {st : AState} {f0 : ℚ} {cur : Coord}
    (hinv : AInvP P ∅ st) (hpop : selectMin st.openH = some (f0, cur))
    (hnotcl : cur ∉ st.closed) (hngoal : cur ≠ P.goal) :
    AInvP P {cur}
      { st with openH := eraseFirst st.openH (f0, cur),
                closed := insert cur st.closed } := by
  obtain ⟨vc, hvc, _, _⟩ := hinv.open_dom f0 cur (selectMin_mem hpop)
  refine ⟨hinv.start_ok, ?_, ?_, hinv.g_start, hinv.g_nonneg, hinv.cf_link,
    hinv.cf_dom, hinv.cf_start, ?_, ?_, ?_, ?_⟩
  · intro f n hfn
    exact hinv.open_dom f n (eraseFirst_subset _ _ _ hfn)
  · intro n v hncl hv hvlim
    simp only [Finset.mem_insert, not_or] at hncl
    obtain ⟨f, hfmem, hfle⟩ := hinv.open_cov n v hncl.2 hv hvlim
    refine ⟨f, mem_eraseFirst_of_ne _ _ _ hfmem ?_, hfle⟩
    intro he
    exact hncl.1 (congrArg Prod.snd he)
  · simp only [Finset.mem_insert, not_or]
    exact ⟨fun h => hngoal h.symm, hinv.goal_unclosed⟩
  · intro n hn
    rcases Finset.mem_insert.mp hn with rfl | hn'
    · exact ⟨vc, hvc⟩
    · exact hinv.closed_dom n hn'
  · intro n hn p hp hplim
    rcases Finset.mem_insert.mp hn with rfl | hn'
    · exact popOpt hinv hpop hnotcl p hp hplim
    · exact hinv.closed_opt n hn' p hp hplim
  · intro n hn hnexc m hm hok vn hvn hbud
    rcases Finset.mem_insert.mp hn with rfl | hn'
    · exact absurd (Finset.mem_singleton_self n) hnexc
    · exact hinv.closed_exp n hn' (Finset.not_mem_empty n) m hm hok vn hvn hbud

theorem init_inv {P : AParams} (hsv : P.start ∈ P.valid) (hsb : P.start ∉ P.blocked) :
    AInvP P ∅ (initState P) := by
  have hgl : ∀ n, alookup (initState P).gl n =
      if P.start = n then some 0 else none := fun n => rfl
  refine ⟨⟨hsv, hsb⟩, ?_, ?_, ?_, ?_, ?_, ?_, rfl, ?_, ?_, ?_, ?_⟩
  · intro f n hfn
    simp only [initState, List.mem_singleton] at hfn
    obtain ⟨rfl, rfl⟩ := Prod.mk.injEq _ _ _ _ ▸ hfn
    exact ⟨0, by rw [hgl, if_pos rfl], by simp, start_mem_cellsFin P⟩
  · intro n v _ hv _
    rw [hgl] at hv
    by_cases h : P.start = n
    · subst h
      rw [if_pos rfl] at hv
      obtain rfl := Option.some.inj hv
      exact ⟨hFun P.diagonal P.start P.goal, by simp [initState], by simp⟩
    · rw [if_neg h] at hv
      exact Option.noConfusion hv
  · rw [hgl, if_pos rfl]
  · intro n v hv
    rw [hgl] at hv
    by_cases h : P.start = n
    · rw [if_pos h] at hv
      obtain rfl := Option.some.inj hv
      exact le_refl 0
    · rw [if_neg h] at hv
      exact Option.noConfusion hv
  · intro n q hq
    have hcf : alookup (initState P).cf n = none := rfl
    rw [hcf] at hq
    exact Option.noConfusion hq
  · intro n v hv
    rw [hgl] at hv
    by_cases h : P.start = n
    · exact Or.inl h.symm
    · rw [if_neg h] at hv
      exact Option.noConfusion hv
  · exact Finset.not_mem_empty _
  · intro n hn
    exact absurd hn (Finset.not_mem_empty n)
  · intro n hn
    exact absurd hn (Finset.not_mem_empty n)
  · intro n hn
    exact absurd hn (Finset.not_mem_empty n)

theorem relax_closed_eq (P : AParams) (S : AState) (cur m : Coord) :
    (relax P S cur m).closed = S.closed := by
  rcases relax_casesD P S cur m with ⟨_, heq⟩ | ⟨_, _, heq⟩ | ⟨_, _, _, heq⟩ |
    ⟨_, _, _, heq⟩ <;> rw [heq]

theorem relax_len (P : AParams) (S : AState) (cur m : Coord) :
    (relax P S cur m).openH.length ≤ S.openH.length + 1 := by
  rcases relax_casesD P S cur m with ⟨_, heq⟩ | ⟨_, _, heq⟩ | ⟨_, _, _, heq⟩ |
    ⟨_, _, _, heq⟩ <;> rw [heq] <;> simp

theorem expand_closed_eq (P : AParams) (cur : Coord) :
    ∀ (L : List Coord) (S : AState),
      (L.foldl (fun a m => relax P a cur m) S).closed = S.closed
  | [], S => rfl
  | m :: L', S => by
    simp only [List.foldl_cons]
    rw [expand_closed_eq P cur L' (relax P S cur m), relax_closed_eq]

theorem expand_len (P : AParams) (cur : Coord) :
    ∀ (L : List Coord) (S : AState),
      (L.foldl (fun a m => relax P a cur m) S).openH.length ≤
        S.openH.length + L.length
  | [], S => by simp
  | m :: L', S => by
    simp only [List.foldl_cons, List.length_cons]
    have h1 := expand_len P cur L' (relax P S cur m)
    have h2 := relax_len P S cur m
    omega

theorem measureA_skip {P : AParams} {st : AState} {top : ℚ × Coord}
    (hmem : top ∈ st.openH) :
    measureA P { st with openH := eraseFirst st.openH top } + 1 = measureA P st := by
  unfold measureA
  have := length_eraseFirst_mem st.openH top hmem
  simp only
  omega

theorem measureA_expand {P : AParams} {st : AState} {f0 : ℚ} {cur : Coord}
    (hmem : (f0, cur) ∈ st.openH) (hcell : cur ∈ cellsFin P)
    (hnotcl : cur ∉ st.closed) :
    measureA P (expand P { st with openH := eraseFirst st.openH (f0, cur),
                                   closed := insert cur st.closed } cur) + 1 ≤
      measureA P st := by
  unfold measureA expand
  have hlen := expand_len P cur (neighF P.diagonal cur)
    { st with openH := eraseFirst st.openH (f0, cur), closed := insert cur st.closed }
  have hcls := expand_closed_eq P cur (neighF P.diagonal cur)
    { st with openH := eraseFirst st.openH (f0, cur), closed := insert cur st.closed }
  rw [hcls]
  simp only
  have hne := length_eraseFirst_mem st.openH (f0, cur) hmem
  have hnl := length_neighF_le P.diagonal cur
  have hcur_mem : cur ∈ cellsFin P \ st.closed := Finset.mem_sdiff.mpr ⟨hcell, hnotcl⟩
  have hcard : (cellsFin P \ insert cur st.closed).card =
      (cellsFin P \ st.closed).card - 1 := by
    rw [Finset.sdiff_insert, Finset.card_erase_of_mem hcur_mem]
  have hpos : 1 ≤ (cellsFin P \ st.closed).card := Finset.card_pos.mpr ⟨cur, hcur_mem⟩
  have hproj : ({ st with openH := eraseFirst st.openH (f0, cur),
                          closed := insert cur st.closed } : AState).openH.length =
      (eraseFirst st.openH (f0, cur)).length := rfl
  rw [hproj] at hlen
  rw [hcard]
  omega

theorem no_path_of_empty {P : AParams} {st : AState} (hinv : AInvP P ∅ st)
    (hempty : st.openH = []) :
    ∀ q, PathOkB P.width P.height P.diagonal P.valid P.blocked P.start P.goal q →
      pathCost q ≤ P.cable_limit → False := by
  intro q hq hqlim
  obtain ⟨⟨hne, hhead, hlast, hchain, hmem⟩, htail⟩ := hq
  obtain ⟨l, rfl⟩ := list_head?_some hhead
  have hok : ∀ c ∈ l, okSucc P c := by
    intro c hc
    have h1 := hmem c (by simp [hc])
    have h2 := htail c (by simpa using hc)
    exact ⟨h2, h1.1, h1.2⟩
  obtain ⟨m, vm, suf, hvm, hch, hlast', hbound, hdisj⟩ :=
    walkLemma hinv l P.start 0 0 hinv.g_start (le_refl 0) hchain hok (by linarith)
  rw [hlast] at hlast'
  have hm_notcl : m ∉ st.closed := by
    rcases hdisj with h | h
    · exact h
    · subst h
      simp only [List.getLast?_singleton, Option.some.injEq] at hlast'
      subst hlast'
      exact hinv.goal_unclosed
  have hvm_lim : vm ≤ P.cable_limit := by
    have h1 := pathCost_nonneg (m :: suf)
    linarith
  obtain ⟨f, hfmem, _⟩ := hinv.open_cov m vm hm_notcl hvm hvm_lim
  rw [hempty] at hfmem
  simp at hfmem

/-- Correctness of the fueled A* loop: with the invariant and sufficient fuel,
a returned path is feasible, within budget, and of minimal cost among feasible
in-budget paths; a `none` result means no feasible in-budget path exists. -/
theorem astarLoop_correct (P : AParams) :
    ∀ (fuel : ℕ) (st : AState), AInvP P ∅ st → measureA P st + 1 ≤ fuel →
      (∀ p, astarLoop P fuel st = some p →
        PathOkB P.width P.height P.diagonal P.valid P.blocked P.start P.goal p ∧
        pathCost p ≤ P.cable_limit ∧
        ∀ q, PathOkB P.width P.height P.diagonal P.valid P.blocked P.start P.goal q →
          pathCost q ≤ P.cable_limit → pathCost p ≤ pathCost q) ∧
      (astarLoop P fuel st = none →
        ∀ q, PathOkB P.width P.height P.diagonal P.valid P.blocked P.start P.goal q →
          pathCost q ≤ P.cable_limit → False) := by
  intro fuel
  induction fuel with
  | zero =>
    intro st _ hfuel
    exact absurd hfuel (by omega)
  | succ fuel ih =>
    intro st hinv hfuel
    rcases option_eq_none_or_some (selectMin st.openH) with hsel | ⟨top, hsel⟩
    · simp only [astarLoop, hsel]
      constructor
      · intro p hp
        exact Option.noConfusion hp
      · intro _ q hq hql
        exact no_path_of_empty hinv (selectMin_none hsel) q hq hql
    · obtain ⟨f0, cur⟩ := top
      simp only [astarLoop, hsel]
      by_cases hcl : cur ∈ st.closed
      · rw [if_pos hcl]
        have hmeas := @measureA_skip P st _ (selectMin_mem hsel)
        exact ih _ (pop_preserve_closed hinv hcl) (by omega)
      · rw [if_neg hcl]
        by_cases hlim : P.cable_limit < (alookup st.gl cur).getD 0
        · rw [if_pos hlim]
          have hmeas := @measureA_skip P st _ (selectMin_mem hsel)
          exact ih _ (pop_preserve_budget hinv hlim) (by omega)
        · rw [if_neg hlim]
          by_cases hgoal : cur = P.goal
          · rw [if_pos hgoal, if_pos (le_of_not_lt hlim)]
            constructor
            · intro p hp
              obtain rfl := Option.some.inj hp
              obtain ⟨vc, hvc, _, _⟩ := hinv.open_dom f0 cur (selectMin_mem hsel)
              have hgc : (alookup st.gl cur).getD 0 = vc := by rw [hvc]; rfl
              have hvc_lim : vc ≤ P.cable_limit := by
                rw [hgc] at hlim
                exact le_of_not_lt hlim
              obtain ⟨hpath, hcost⟩ := recSound hinv hvc
              subst hgoal
              refine ⟨hpath, le_trans hcost hvc_lim, ?_⟩
              intro q hq hql
              obtain ⟨vc', hvc', hle'⟩ := popOpt hinv hsel hcl q hq hql
              rw [hvc] at hvc'
              obtain rfl := Option.some.inj hvc'
              linarith
            · intro hnone
              exact Option.noConfusion hnone
          · rw [if_neg hgoal]
            have hinv₁ := close_preserve hinv hsel hcl hgoal
            have hcl₁ : cur ∈ ({ st with openH := eraseFirst st.openH (f0, cur),
                                         closed := insert cur st.closed } :
                AState).closed :=
              Finset.mem_insert_self cur st.closed
            obtain ⟨hinv₂, _, _⟩ := expand_preserve hinv₁ hcl₁
            obtain ⟨vc, hvc, _, hcell⟩ := hinv.open_dom f0 cur (selectMin_mem hsel)
            have hmeas := measureA_expand (selectMin_mem hsel) hcell hcl
            exact ih _ hinv₂ (by omega)

theorem list_getLast?_mem {α : Type} :
    ∀ {l : List α} {a : α}, l.getLast? = some a → a ∈ l
  | [], a, h => by simp at h
  | [x], a, h => by
    simp only [List.getLast?_singleton, Option.some.injEq] at h
    simp [h]
  | x :: y :: t, a, h => by
    rw [List.getLast?_cons_cons] at h
    exact List.mem_cons_of_mem x (list_getLast?_mem h)

/-- Top-level correctness of `astar`: a returned path is feasible (within the
mask, avoiding obstacles, adjacent steps, in-bounds after the start cell) and
cost-minimal among in-budget feasible paths; a `none` result means no feasible
in-budget path exists. -/
theorem astarQ_correct (width height : ℤ) (start goal : Coord)
    (blocked valid : Finset Coord) (diagonal : Bool) (cable_limit : ℚ) :
    (∀ p, astarQ width height start goal blocked valid diagonal cable_limit = some p →
      PathOkB width height diagonal valid blocked start goal p ∧
      pathCost p ≤ cable_limit ∧
      ∀ q, PathOkB width height diagonal valid blocked start goal q →
        pathCost q ≤ cable_limit → pathCost p ≤ pathCost q) ∧
    (astarQ width height start goal blocked valid diagonal cable_limit = none →
      ∀ q, PathOkB width height diagonal valid blocked start goal q →
        pathCost q ≤ cable_limit → False) := by
  unfold astarQ
  by_cases hpre1 : start ∉ valid ∨ goal ∉ valid
  · rw [if_pos hpre1]
    refine ⟨fun p hp => Option.noConfusion hp, fun _ q hq _ => ?_⟩
    obtain ⟨⟨hne, hhead, hlast, _, hmem⟩, _⟩ := hq
    obtain ⟨t, rfl⟩ := list_head?_some hhead
    rcases hpre1 with h | h
    · exact h (hmem start (by simp)).1
    · exact h (hmem goal (list_getLast?_mem hlast)).1
  · rw [if_neg hpre1]
    by_cases hpre2 : start ∈ blocked ∨ goal ∈ blocked
    · rw [if_pos hpre2]
      refine ⟨fun p hp => Option.noConfusion hp, fun _ q hq _ => ?_⟩
      obtain ⟨⟨hne, hhead, hlast, _, hmem⟩, _⟩ := hq
      obtain ⟨t, rfl⟩ := list_head?_some hhead
      rcases hpre2 with h | h
      · exact (hmem start (by simp)).2 h
      · exact (hmem goal (list_getLast?_mem hlast)).2 h
    · rw [if_neg hpre2]
      push_neg at hpre1 hpre2
      have hinit := init_inv
        (P := { width := width, height := height, start := start, goal := goal,
                blocked := blocked, valid := valid, diagonal := diagonal,
                cable_limit := cable_limit })
        (by simpa using hpre1.1) (by simpa using hpre2.1)
      have hfuel : measureA
          { width := width, height := height, start := start, goal := goal,
            blocked := blocked, valid := valid, diagonal := diagonal,
            cable_limit := cable_limit }
          (initState
            { width := width, height := height, start := start, goal := goal,
              blocked := blocked, valid := valid, diagonal := diagonal,
              cable_limit := cable_limit }) + 1 ≤
          astarFuel
            { width := width, height := height, start := start, goal := goal,
              blocked := blocked, valid := valid, diagonal := diagonal,
              cable_limit := cable_limit } := by
        unfold measureA astarFuel initState
        simp only [Finset.sdiff_empty, List.length_singleton]
        omega
      exact astarLoop_correct _ _ _ hinit hfuel

/-! ## Flood-fill correctness -/

theorem mem_cellsR_of {R : RParams} {c : Coord}
    (hb : in_bounds c R.width R.height) (hv : c ∈ R.valid) : c ∈ cellsR R := by
  unfold cellsR
  rw [Finset.mem_filter]
  refine ⟨?_, hv⟩
  rw [Finset.mem_product]
  obtain ⟨h1, h2, h3, h4⟩ := hb
  constructor
  · rw [Finset.mem_Icc]
    omega
  · rw [Finset.mem_Icc]
    omega

theorem reachStep_cases (R : RParams) (sp : Finset Coord × List Coord) (p : Coord) :
    (reachStep R sp p = sp ∧
      (¬ in_bounds p R.width R.height ∨ p ∈ sp.1 ∨ p ∉ R.valid ∨ p ∈ R.blocked)) ∨
    (in_bounds p R.width R.height ∧ p ∉ sp.1 ∧ p ∈ R.valid ∧ p ∉ R.blocked ∧
      reachStep R sp p = (insert p sp.1, p :: sp.2)) := by
  unfold reachStep
  by_cases hb : in_bounds p R.width R.height
  · rw [if_neg (not_not_intro hb)]
    by_cases hs : p ∈ sp.1
    · rw [if_pos hs]
      exact Or.inl ⟨rfl, Or.inr (Or.inl hs)⟩
    · rw [if_neg hs]
      by_cases hv : p ∉ R.valid ∨ p ∈ R.blocked
      · rw [if_pos hv]
        exact Or.inl ⟨rfl, Or.inr (Or.inr hv)⟩
      · rw [if_neg hv]
        push_neg at hv
        exact Or.inr ⟨hb, hs, hv.1, hv.2, rfl⟩
  · rw [if_pos hb]
    exact Or.inl ⟨rfl, Or.inl hb⟩

theorem reachStep_fold (R : RParams) (c₀ s₀ : Coord) :
    ∀ (L : List Coord) (sp : Finset Coord × List Coord),
      (∀ p ∈ L, p ∈ neighF R.diagonal c₀) →
      (∀ c ∈ sp.1, c ∈ (L.foldl (reachStep R) sp).1) ∧
      (∀ c ∈ sp.2, c ∈ (L.foldl (reachStep R) sp).2) ∧
      (∀ c ∈ (L.foldl (reachStep R) sp).1, c ∈ sp.1 ∨
        (c ∈ (L.foldl (reachStep R) sp).2 ∧ c ∈ neighF R.diagonal c₀ ∧
          in_bounds c R.width R.height ∧ c ∈ R.valid ∧ c ∉ R.blocked)) ∧
      (∀ c ∈ (L.foldl (reachStep R) sp).2, c ∈ sp.2 ∨
        c ∈ (L.foldl (reachStep R) sp).1) ∧
      (∀ p ∈ L, in_bounds p R.width R.height → p ∈ R.valid → p ∉ R.blocked →
        p ∈ (L.foldl (reachStep R) sp).1) ∧
      ((L.foldl (reachStep R) sp).2.length +
          9 * ((insert s₀ (cellsR R)) \ (L.foldl (reachStep R) sp).1).card ≤
        sp.2.length + 9 * ((insert s₀ (cellsR R)) \ sp.1).card)
  | [], sp, _ => by
    exact ⟨fun c h => h, fun c h => h, fun c h => Or.inl h, fun c h => Or.inl h,
      by simp, le_refl _⟩
  | p :: L', sp, hL => by
    have hp := hL p (by simp)
    have ih := fun sp₁ => reachStep_fold R c₀ s₀ L' sp₁
      (fun x hx => hL x (by simp [hx]))
    simp only [List.foldl_cons]
    rcases reachStep_cases R sp p with ⟨heq, hwhy⟩ | ⟨hb, hs, hv, hbl, heq⟩
    · rw [heq]
      obtain ⟨i1, i2, i3, i4, i5, i6⟩ := ih sp
      refine ⟨i1, i2, i3, i4, ?_, i6⟩
      intro q hq hqb hqv hqbl
      rcases List.mem_cons.mp hq with rfl | hq'
      · rcases hwhy with h | h | h | h
        · exact absurd hqb h
        · exact i1 q h
        · exact absurd hqv h
        · exact absurd h hqbl
      · exact i5 q hq' hqb hqv hqbl
    · rw [heq]
      obtain ⟨i1, i2, i3, i4, i5, i6⟩ := ih (insert p sp.1, p :: sp.2)
      refine ⟨?_, ?_, ?_, ?_, ?_, ?_⟩
      · intro c hc
        exact i1 c (Finset.mem_insert_of_mem hc)
      · intro c hc
        exact i2 c (List.mem_cons_of_mem p hc)
      · intro c hc
        rcases i3 c hc with hc' | hc'
        · rcases Finset.mem_insert.mp hc' with rfl | hc''
          · exact Or.inr ⟨i2 c (by simp), hp, hb, hv, hbl⟩
          · exact Or.inl hc''
        · exact Or.inr hc'
      · intro c hc
        rcases i4 c hc with h | h
        · rcases List.mem_cons.mp h with rfl | h'
          · exact Or.inr (i1 c (Finset.mem_insert_self _ _))
          · exact Or.inl h'
        · exact Or.inr h
      · intro q hq hqb hqv hqbl
        rcases List.mem_cons.mp hq with rfl | hq'
        · exact i1 q (Finset.mem_insert_self _ _)
        · exact i5 q hq' hqb hqv hqbl
      · refine le_trans i6 ?_
        simp only [List.length_cons]
        have hpc : p ∈ (insert s₀ (cellsR R)) \ sp.1 :=
          Finset.mem_sdiff.mpr ⟨Finset.mem_insert_of_mem (mem_cellsR_of hb hv), hs⟩
        have hcard : ((insert s₀ (cellsR R)) \ insert p sp.1).card =
            ((insert s₀ (cellsR R)) \ sp.1).card - 1 := by
          rw [Finset.sdiff_insert, Finset.card_erase_of_mem hpc]
        have hpos : 1 ≤ ((insert s₀ (cellsR R)) \ sp.1).card :=
          Finset.card_pos.mpr ⟨p, hpc⟩
        rw [hcard]
        omega

theorem reachLoop_correct (R : RParams) (start : Coord) :
    ∀ (fuel : ℕ) (seen : Finset Coord) (stack : List Coord),
      RInv R start seen stack → measureR R start seen stack + 1 ≤ fuel →
      (∀ c ∈ seen, c ∈ reachLoop R fuel seen stack) ∧
      (∀ c ∈ reachLoop R fuel seen stack, ReachRel R start c) ∧
      (∀ c ∈ reachLoop R fuel seen stack, ∀ m ∈ neighF R.diagonal c,
        in_bounds m R.width R.height → m ∈ R.valid → m ∉ R.blocked →
        m ∈ reachLoop R fuel seen stack) := by
  intro fuel
  induction fuel with
  | zero =>
    intro seen stack _ hfuel
    exact absurd hfuel (by omega)
  | succ fuel ih =>
    intro seen stack hinv hfuel
    match stack with
    | [] =>
      simp only [reachLoop]
      refine ⟨fun c h => h, hinv.seen_reach, ?_⟩
      intro c hc m hm hmb hmv hmbl
      rcases hinv.seen_front c hc with h | h
      · simp at h
      · exact h m hm hmb hmv hmbl
    | c₀ :: stack' =>
      simp only [reachLoop]
      have hc₀_seen := hinv.stack_seen c₀ (by simp)
      have hc₀_reach := hinv.seen_reach c₀ hc₀_seen
      obtain ⟨f1, f2, f3, f4, f5, f6⟩ :=
        reachStep_fold R c₀ start (neighF R.diagonal c₀) (seen, stack')
          (fun p hp => hp)
      set sp' := (neighF R.diagonal c₀).foldl (reachStep R) (seen, stack') with hsp
      have hinv' : RInv R start sp'.1 sp'.2 := by
        refine ⟨?_, ?_, ?_, ?_⟩
        · intro c hc
          rcases f4 c hc with h | h
          · exact f1 c (hinv.stack_seen c (by simp [h]))
          · exact h
        · intro c hc
          rcases f3 c hc with h | ⟨_, hadj, hb, hv, hbl⟩
          · exact hinv.seen_reach c h
          · exact ReachRel.step hc₀_reach hadj hb hv hbl
        · intro c hc
          rcases f3 c hc with h | ⟨_, _, hb, hv, _⟩
          · exact hinv.seen_cells c h
          · exact Or.inl (mem_cellsR_of hb hv)
        · intro c hc
          rcases f3 c hc with h | ⟨hst, _, _, _, _⟩
          · rcases hinv.seen_front c h with h' | h'
            · rcases List.mem_cons.mp h' with rfl | h''
              · right
                intro m hm hmb hmv hmbl
                exact f5 m hm hmb hmv hmbl
              · exact Or.inl (f2 c h'')
            · right
              intro m hm hmb hmv hmbl
              exact f1 m (h' m hm hmb hmv hmbl)
          · exact Or.inl hst
      have hmeas : measureR R start sp'.1 sp'.2 + 1 ≤ fuel := by
        have f6' : sp'.2.length + 9 * ((insert start (cellsR R)) \ sp'.1).card ≤
            stack'.length + 9 * ((insert start (cellsR R)) \ seen).card := by
          simpa using f6
        unfold measureR at hfuel ⊢
        simp only [List.length_cons] at hfuel
        omega
      obtain ⟨g1, g2, g3⟩ := ih sp'.1 sp'.2 hinv' hmeas
      refine ⟨?_, g2, g3⟩
      intro c hc
      exact g1 c (f1 c hc)

/-- Characterization of the flood fill: a cell is in the computed set exactly
when the origin is admissible and the cell is connectivity-reachable. -/
theorem compute_reachable_spec (width height : ℤ) (start : Coord)
    (blocked valid : Finset Coord) (diagonal : Bool) :
    ∀ c, c ∈ compute_reachable width height start blocked valid diagonal ↔
      ((start ∈ valid ∧ start ∉ blocked) ∧
        ReachRel
          { width := width, height := height, blocked := blocked,
            valid := valid, diagonal := diagonal } start c) := by
  intro c
  unfold compute_reachable
  by_cases hpre : start ∉ valid ∨ start ∈ blocked
  · rw [if_pos hpre]
    simp only [Finset.not_mem_empty, false_iff, not_and]
    intro hok _
    rcases hpre with h | h
    · exact h hok.1
    · exact hok.2 h
  · rw [if_neg hpre]
    push_neg at hpre
    set R : RParams :=
      { width := width, height := height, blocked := blocked, valid := valid,
        diagonal := diagonal } with hR
    have hinv : RInv R start {start} [start] := by
      refine ⟨?_, ?_, ?_, ?_⟩
      · intro x hx
        simp only [List.mem_singleton] at hx
        simp [hx]
      · intro x hx
        rw [Finset.mem_singleton] at hx
        subst hx
        exact ReachRel.base
      · intro x hx
        rw [Finset.mem_singleton] at hx
        exact Or.inr hx
      · intro x hx
        rw [Finset.mem_singleton] at hx
        exact Or.inl (by simp [hx])
    have hfuel : measureR R start {start} [start] + 1 ≤ reachFuel R := by
      unfold measureR reachFuel
      have hsub : (insert start (cellsR R)) \ {start} ⊆ cellsR R := by
        intro x hx
        rw [Finset.mem_sdiff, Finset.mem_insert, Finset.mem_singleton] at hx
        rcases hx.1 with h | h
        · exact absurd h hx.2
        · exact h
      have := Finset.card_le_card hsub
      simp only [List.length_singleton]
      omega
    obtain ⟨g1, g2, g3⟩ := reachLoop_correct R start (reachFuel R) {start} [start]
      hinv hfuel
    constructor
    · intro hc
      exact ⟨hpre, g2 c hc⟩
    · rintro ⟨_, hr⟩
      induction hr with
      | base => exact g1 start (Finset.mem_singleton_self start)
      | step hq hadj hb hv hbl ihq => exact g3 _ ihq _ hadj hb hv hbl

theorem pathCost_prefix_le :
    ∀ (l₁ l₂ : List Coord), pathCost l₁ ≤ pathCost (l₁ ++ l₂)
  | [], l₂ => by
    simpa [pathCost] using pathCost_nonneg l₂
  | [a], l₂ => by
    simpa [pathCost] using pathCost_nonneg (a :: l₂)
  | a :: b :: t, l₂ => by
    have ih := pathCost_prefix_le (b :: t) l₂
    simp only [List.cons_append, pathCost_cons₂] at *
    linarith

theorem pathCost_take_mono (p : List Coord) {i j : ℕ} (h : i ≤ j) :
    pathCost (p.take i) ≤ pathCost (p.take j) := by
  have h1 : p.take i = (p.take j).take i := by
    rw [List.take_take, min_eq_left h]
  calc pathCost (p.take i) = pathCost ((p.take j).take i) := by rw [h1]
    _ ≤ pathCost ((p.take j).take i ++ (p.take j).drop i) := pathCost_prefix_le _ _
    _ = pathCost (p.take j) := by rw [List.take_append_drop]

theorem runsAstar_acc (h : CSVChangeHandler) :
    ∀ (events : List (Bool × String)) (acc : ℕ),
      events.foldl (fun a e => if on_modified h e.1 e.2 then a + 1 else a) acc =
        acc + (events.filter (fun e => on_modified h e.1 e.2)).length
  | [], acc => by simp
  | e :: es, acc => by
    simp only [List.foldl_cons, List.filter_cons]
    by_cases he : on_modified h e.1 e.2
    · rw [if_pos he, runsAstar_acc h es (acc + 1), if_pos he]
      simp only [List.length_cons]
      omega
    · rw [if_neg he, runsAstar_acc h es acc, if_neg (by simpa using he)]

/-! ## Claim theorems -/

/-- C10: the backend `astar` answers the `start == goal` case first, before
the bounds and blocked-set checks, so calling it with `start = goal = s`
returns the one-cell path `[s]` for every grid size and blocked set, even
when `s` is out of bounds or blocked. -/
theorem C10_backend_start_eq_goal (width height : ℤ) (s : Coord)
    (blocked : Finset Coord) (diagonal : Bool) :
    astarB width height s s blocked diagonal = some [s] := by
  unfold astarB
  rw [if_pos rfl]

/-- C9 (counterexample): the watcher has no content hashing and no debounce
window — a burst of two modification events on the watched obstacles file
runs the A* pipeline twice, not once per stabilized change as claimed. -/
theorem C9_counterexample :
    runsAstar { grid_path := "grid.csv", obs_path := "obstacles.csv" }
      [(false, "obstacles.csv"), (false, "obstacles.csv")] = 2 ∧
    runsAstar { grid_path := "grid.csv", obs_path := "obstacles.csv" }
      [(false, "obstacles.csv"), (false, "obstacles.csv")] ≠ 1 := by
  constructor
  · rfl
  · intro h
    simp [runsAstar, on_modified] at h

/-- C9 (amended): the watcher reacts to each filesystem modification event
individually — `run_astar` fires exactly when the event is a non-directory
event on one of the two watched paths, and over an event sequence the
pipeline runs once per matching event, with no hashing or debouncing. -/
theorem C9_watcher_immediate (h : CSVChangeHandler)
    (events : List (Bool × String)) :
    (∀ (is_dir : Bool) (src : String), on_modified h is_dir src = true ↔
      (¬ is_dir = true ∧ (src = h.grid_path ∨ src = h.obs_path))) ∧
    runsAstar h events =
      (events.filter (fun e => on_modified h e.1 e.2)).length := by
  constructor
  · intro is_dir src
    unfold on_modified
    split_ifs with hc
    · simpa using hc
    · simpa using hc
  · have hacc := runsAstar_acc h events 0
    simpa [runsAstar] using hacc

/-- C6: obstacle inflation always contains the input obstacles (hence their
restriction to the valid mask), never removes cells, and radius `0` returns
the input set unchanged. -/
theorem C6_inflate_superset (blocked valid : Finset Coord) (width height : ℤ)
    (radius : ℤ) (_hr : 0 ≤ radius) :
    blocked ∩ valid ⊆ inflate_obstacles blocked valid width height radius ∧
    inflate_obstacles blocked valid width height 0 = blocked ∧
    blocked ⊆ inflate_obstacles blocked valid width height radius := by
  have hsub : blocked ⊆ inflate_obstacles blocked valid width height radius := by
    unfold inflate_obstacles
    split_ifs
    · exact Finset.Subset.refl blocked
    · exact Finset.subset_union_left
  refine ⟨?_, ?_, hsub⟩
  · exact le_trans Finset.inter_subset_left hsub
  · unfold inflate_obstacles
    rw [if_pos (le_refl 0)]

/-- C6 witness: the inflation facts instantiated on a concrete grid. -/
theorem C6_inflate_superset_witness :
    ({(1, 1)} : Finset Coord) ∩ {(0, 0), (1, 1)} ⊆
      inflate_obstacles {(1, 1)} {(0, 0), (1, 1)} 3 3 1 ∧
    inflate_obstacles {(1, 1)} {(0, 0), (1, 1)} 3 3 0 = {(1, 1)} ∧
    ({(1, 1)} : Finset Coord) ⊆ inflate_obstacles {(1, 1)} {(0, 0), (1, 1)} 3 3 1 :=
  C6_inflate_superset {(1, 1)} {(0, 0), (1, 1)} 3 3 1 (by norm_num)

/-- C8: when the origin is outside the valid mask or blocked, the reachable
set is empty and every valid non-obstacle cell is emitted as newly
unreachable; in every case the emitted set is exactly the valid cells neither
reachable nor already persisted obstacles. -/
theorem C8_newly_unreachable (width height : ℤ) (start : Coord)
    (blocked valid : Finset Coord) (diagonal : Bool) :
    ((start ∉ valid ∨ start ∈ blocked) →
      compute_reachable width height start blocked valid diagonal = ∅ ∧
      newly_unreachable width height start blocked valid diagonal =
        valid \ blocked) ∧
    newly_unreachable width height start blocked valid diagonal =
      valid.filter (fun p =>
        p ∉ compute_reachable width height start blocked valid diagonal ∧
        p ∉ blocked) := by
  constructor
  · intro hpre
    have hempty : compute_reachable width height start blocked valid diagonal = ∅ := by
      unfold compute_reachable
      rw [if_pos hpre]
    refine ⟨hempty, ?_⟩
    unfold newly_unreachable
    rw [hempty]
    ext p
    simp only [Finset.mem_filter, Finset.mem_sdiff, Finset.not_mem_empty,
      not_false_iff, and_true]
  · unfold newly_unreachable
    ext p
    simp only [Finset.mem_filter]
    tauto

/-- C8 witness: a blocked origin on a concrete grid yields an empty reachable
set and reports every other valid free cell. -/
theorem C8_newly_unreachable_witness :
    compute_reachable 2 2 (0, 0) {(0, 0)} {(0, 0), (0, 1), (1, 0), (1, 1)} false = ∅ ∧
    newly_unreachable 2 2 (0, 0) {(0, 0)} {(0, 0), (0, 1), (1, 0), (1, 1)} false =
      ({(0, 0), (0, 1), (1, 0), (1, 1)} : Finset Coord) \ {(0, 0)} :=
  (C8_newly_unreachable 2 2 (0, 0) {(0, 0)} {(0, 0), (0, 1), (1, 0), (1, 1)}
    false).1 (Or.inr (by decide))

/-- C7: running the Reachability Analyzer again with the obstacle set already
augmented by its own newly-unreachable output produces no new unreachable
cells — the reachability closure is idempotent. -/
theorem C7_closure_idempotent (width height : ℤ) (start : Coord)
    (blocked valid : Finset Coord) (diagonal : Bool) :
    newly_unreachable width height start
      (blocked ∪ newly_unreachable width height start blocked valid diagonal)
      valid diagonal = ∅ := by
  apply Finset.eq_empty_iff_forall_not_mem.mpr
  intro p hp
  unfold newly_unreachable at hp
  rw [Finset.mem_filter] at hp
  obtain ⟨hpv, hpb', hpr'⟩ := hp
  rw [Finset.mem_union, not_or] at hpb'
  obtain ⟨hpb, hpn⟩ := hpb'
  have hpr : p ∈ compute_reachable width height start blocked valid diagonal := by
    by_contra hc
    apply hpn
    rw [Finset.mem_filter]
    exact ⟨hpv, hpb, hc⟩
  obtain ⟨hok, hrel⟩ :=
    (compute_reachable_spec width height start blocked valid diagonal p).mp hpr
  apply hpr'
  rw [compute_reachable_spec]
  have hmem_reach : ∀ c, ReachRel
      { width := width, height := height, blocked := blocked, valid := valid,
        diagonal := diagonal } start c →
      c ∉ newly_unreachable width height start blocked valid diagonal := by
    intro c hc hcx
    unfold newly_unreachable at hcx
    rw [Finset.mem_filter] at hcx
    exact hcx.2.2
      ((compute_reachable_spec width height start blocked valid diagonal c).mpr
        ⟨hok, hc⟩)
  refine ⟨⟨hok.1, ?_⟩, ?_⟩
  · rw [Finset.mem_union, not_or]
    exact ⟨hok.2, hmem_reach start ReachRel.base⟩
  · clear hpr' hpn hpb hpv hpr
    induction hrel with
    | base => exact ReachRel.base
    | step hq hadj hb hv hbl ih =>
      refine ReachRel.step ih hadj hb hv ?_
      rw [Finset.mem_union, not_or]
      refine ⟨hbl, hmem_reach _ (ReachRel.step hq hadj hb hv hbl)⟩

/-- C1 (counterexample): the claim quantifies over every valid-cell mask, but
the planner also bounds-checks every successor, so when the mask contains an
out-of-bounds cell, a path that stays in the mask and avoids every obstacle
exists within budget while `astar` still returns `None`. -/
theorem C1_counterexample :
    astarQ 1 1 (0, 0) (0, -1) ∅ {(0, 0), (0, -1)} false 300 = none ∧
    PathOk false {(0, 0), (0, -1)} ∅ (0, 0) (0, -1) [(0, 0), (0, -1)] ∧
    pathCost [(0, 0), (0, -1)] ≤ 300 := by
  refine ⟨by decide, by decide, by decide⟩

/-- C1 (amended): for every grid, start, goal, topology and budget, `astar`
returns a lowest-cost path among the topology-adjacent paths that avoid the
blocked set, stay in the valid mask, remain within the grid bounds after the
start cell, and whose total cost is within the budget, whenever such a path
exists; otherwise it returns `None`. -/
theorem C1_segment_planner_optimal (width height : ℤ) (start goal : Coord)
    (blocked valid : Finset Coord) (diagonal : Bool) (cable_limit : ℚ) :
    (∀ p, astarQ width height start goal blocked valid diagonal cable_limit =
        some p →
      PathOkB width height diagonal valid blocked start goal p ∧
      pathCost p ≤ cable_limit ∧
      ∀ q, PathOkB width height diagonal valid blocked start goal q →
        pathCost q ≤ cable_limit → pathCost p ≤ pathCost q) ∧
    (astarQ width height start goal blocked valid diagonal cable_limit = none →
      ¬ ∃ q, PathOkB width height diagonal valid blocked start goal q ∧
        pathCost q ≤ cable_limit) := by
  obtain ⟨h1, h2⟩ :=
    astarQ_correct width height start goal blocked valid diagonal cable_limit
  exact ⟨h1, fun hn ⟨q, hq, hql⟩ => h2 hn q hq hql⟩

/-- C1 witness: on a concrete 2×2 grid the planner returns the optimal path. -/
theorem C1_segment_planner_optimal_witness :
    astarQ 2 2 (0, 0) (1, 1) ∅ {(0, 0), (0, 1), (1, 0), (1, 1)} false 300 =
      some [(0, 0), (0, 1), (1, 1)] ∧
    PathOkB 2 2 false {(0, 0), (0, 1), (1, 0), (1, 1)} ∅ (0, 0) (1, 1)
      [(0, 0), (0, 1), (1, 1)] ∧
    pathCost [(0, 0), (0, 1), (1, 1)] ≤ 300 ∧
    (∀ q, PathOkB 2 2 false {(0, 0), (0, 1), (1, 0), (1, 1)} ∅ (0, 0) (1, 1) q →
      pathCost q ≤ 300 → pathCost [(0, 0), (0, 1), (1, 1)] ≤ pathCost q) := by
  have h := (C1_segment_planner_optimal 2 2 (0, 0) (1, 1) ∅
    {(0, 0), (0, 1), (1, 0), (1, 1)} false 300).1 [(0, 0), (0, 1), (1, 1)]
    (by decide)
  exact ⟨by decide, h.1, h.2.1, h.2.2⟩

/-- C2: every path returned by `astar` lies entirely inside the valid mask,
contains no cell of the blocked set of that call, and each consecutive pair
of cells is adjacent under the chosen movement topology. -/
theorem C2_path_validity (width height : ℤ) (start goal : Coord)
    (blocked valid : Finset Coord) (diagonal : Bool) (cable_limit : ℚ) :
    ∀ p, astarQ width height start goal blocked valid diagonal cable_limit =
        some p →
      (∀ c ∈ p, c ∈ valid) ∧ (∀ c ∈ p, c ∉ blocked) ∧
      List.Chain' (fun a b => b ∈ neighF diagonal a) p := by
  intro p hp
  obtain ⟨⟨⟨_, _, _, hch, hmem⟩, _⟩, _, _⟩ :=
    (astarQ_correct width height start goal blocked valid diagonal
      cable_limit).1 p hp
  exact ⟨fun c hc => (hmem c hc).1, fun c hc => (hmem c hc).2, hch⟩

/-- C2 witness: path validity on a concrete run. -/
theorem C2_path_validity_witness :
    (∀ c ∈ [((0 : ℤ), (0 : ℤ)), (0, 1), (1, 1)],
      c ∈ ({(0, 0), (0, 1), (1, 0), (1, 1)} : Finset Coord)) ∧
    (∀ c ∈ [((0 : ℤ), (0 : ℤ)), (0, 1), (1, 1)], c ∉ (∅ : Finset Coord)) ∧
    List.Chain' (fun a b => b ∈ neighF false a)
      [((0 : ℤ), (0 : ℤ)), (0, 1), (1, 1)] :=
  C2_path_validity 2 2 (0, 0) (1, 1) ∅ {(0, 0), (0, 1), (1, 0), (1, 1)} false 300
    [(0, 0), (0, 1), (1, 1)] (by decide)

/-- C3: the selected heuristic — weighted Manhattan for 4-connected movement,
weighted octile for 8-connected movement under the configured step costs —
never exceeds the cost of any topology-adjacent path between its endpoints,
hence never exceeds the cheapest such path (admissibility). -/
theorem C3_heuristic_admissible (diagonal : Bool) (a b : Coord) (p : List Coord)
    (hne : p ≠ [])
    (hchain : List.Chain' (fun x y => y ∈ neighF diagonal x) p)
    (hhead : p.head? = some a) (hlast : p.getLast? = some b) :
    hFun diagonal a b ≤ pathCost p :=
  hFun_le_pathCost diagonal hne hchain hhead hlast

/-- C3 witness: admissibility on a concrete path for both topologies. -/
theorem C3_heuristic_admissible_witness :
    hFun false (0, 0) (1, 1) ≤ pathCost [((0 : ℤ), (0 : ℤ)), (0, 1), (1, 1)] ∧
    hFun true (0, 0) (1, 1) ≤ pathCost [((0 : ℤ), (0 : ℤ)), (1, 1)] := by
  constructor
  · exact C3_heuristic_admissible false (0, 0) (1, 1) [(0, 0), (0, 1), (1, 1)]
      (by decide) (by decide) (by decide) (by decide)
  · exact C3_heuristic_admissible true (0, 0) (1, 1) [(0, 0), (1, 1)]
      (by decide) (by decide) (by decide) (by decide)

/-- C4: along every returned path the cumulative cost (cost of each prefix)
is non-decreasing and the total never exceeds the budget; and with a valid,
reachable start/goal pair but a budget below the heuristic distance, the
planner returns no path. -/
theorem C4_cost_monotone (width height : ℤ) (start goal : Coord)
    (blocked valid : Finset Coord) (diagonal : Bool) (cable_limit : ℚ) :
    (∀ p, astarQ width height start goal blocked valid diagonal cable_limit =
        some p →
      (∀ i j, i ≤ j → pathCost (p.take i) ≤ pathCost (p.take j)) ∧
      pathCost p ≤ cable_limit) ∧
    (start ∈ valid → start ∉ blocked → goal ∈ valid → goal ∉ blocked →
      (∃ q, PathOkB width height diagonal valid blocked start goal q) →
      cable_limit < hFun diagonal start goal →
      astarQ width height start goal blocked valid diagonal cable_limit = none) := by
  obtain ⟨h1, _⟩ :=
    astarQ_correct width height start goal blocked valid diagonal cable_limit
  constructor
  · intro p hp
    obtain ⟨_, hcost, _⟩ := h1 p hp
    exact ⟨fun i j hij => pathCost_take_mono p hij, hcost⟩
  · intro _ _ _ _ _ hlim
    rcases option_eq_none_or_some
      (astarQ width height start goal blocked valid diagonal cable_limit) with
      hn | ⟨p, hp⟩
    · exact hn
    · exfalso
      obtain ⟨⟨⟨hne, hhead, hlast, hch, _⟩, _⟩, hcost, _⟩ := h1 p hp
      have hadm := hFun_le_pathCost diagonal hne hch hhead hlast
      linarith

/-- C4 witness: monotone prefix costs on a returned path, and refusal under a
budget below the heuristic on a reachable instance. -/
theorem C4_cost_monotone_witness :
    (∀ i j, i ≤ j →
      pathCost ([((0 : ℤ), (0 : ℤ)), (0, 1), (1, 1)].take i) ≤
        pathCost ([((0 : ℤ), (0 : ℤ)), (0, 1), (1, 1)].take j)) ∧
    pathCost [((0 : ℤ), (0 : ℤ)), (0, 1), (1, 1)] ≤ 300 ∧
    astarQ 2 2 (0, 0) (1, 1) ∅ {(0, 0), (0, 1), (1, 0), (1, 1)} false 1 = none := by
  have h1 := (C4_cost_monotone 2 2 (0, 0) (1, 1) ∅
    {(0, 0), (0, 1), (1, 0), (1, 1)} false 300).1 [(0, 0), (0, 1), (1, 1)]
    (by decide)
  have h2 := (C4_cost_monotone 2 2 (0, 0) (1, 1) ∅
    {(0, 0), (0, 1), (1, 0), (1, 1)} false 1).2 (by decide) (by decide)
    (by decide) (by decide) ⟨[(0, 0), (0, 1), (1, 1)], by decide⟩ (by decide)
  exact ⟨h1.1, h1.2, h2⟩

/-- C5 (counterexample): a start and goal that lie outside the grid bounds
but inside the valid mask are not rejected — with `start = goal` outside the
bounds, the planner returns a path instead of `None`. -/
theorem C5_counterexample :
    astarQ 1 1 (0, -1) (0, -1) ∅ {(0, -1)} false 300 = some [(0, -1)] ∧
    ¬ in_bounds (0, -1) 1 1 := by
  refine ⟨by decide, by decide⟩

/-- C5 (amended): `astar` returns `None` immediately whenever the start or
the goal lies outside the valid mask or inside the blocked set of that call
(grid bounds are not checked for the start and goal themselves). -/
theorem C5_precondition_failure (width height : ℤ) (start goal : Coord)
    (blocked valid : Finset Coord) (diagonal : Bool) (cable_limit : ℚ)
    (h : start ∉ valid ∨ goal ∉ valid ∨ start ∈ blocked ∨ goal ∈ blocked) :
    astarQ width height start goal blocked valid diagonal cable_limit = none := by
  unfold astarQ
  by_cases h1 : start ∉ valid ∨ goal ∉ valid
  · rw [if_pos h1]
  · rw [if_neg h1]
    push_neg at h1
    have h2 : start ∈ blocked ∨ goal ∈ blocked := by
      rcases h with h | h | h | h
      · exact absurd h1.1 h
      · exact absurd h1.2 h
      · exact Or.inl h
      · exact Or.inr h
    rw [if_pos h2]

/-- C5 witness: an in-bounds grid with the goal outside the mask. -/
theorem C5_precondition_failure_witness :
    astarQ 2 2 (0, 0) (5, 5) ∅ {(0, 0)} false 300 = none :=
  C5_precondition_failure 2 2 (0, 0) (5, 5) ∅ {(0, 0)} false 300
    (Or.inr (Or.inl (by decide)))
